import Mathlib

/-!
Verification of `Lab_1/configure_nodes.py` (static-routing configurator):
a shallow embedding of its routing-graph construction, Dijkstra resolver,
frame-protocol driver, addressing phases and static-route synthesizer,
together with proofs about them.

Modelling conventions:
* Python `dict`s (insertion-ordered) are embedded as association lists;
  `defaultdict` get-or-create and `d[k] = v` update-or-append are embedded
  by the `alist*` / `nm*` helpers below.
* Machine integers do not occur; all arithmetic is on `Nat`.
* Unbounded `while` loops are embedded with an explicit fuel argument that
  is provably sufficient (each iteration strictly consumes fuel-measured
  input); the fuel-exhaustion branches are proved unreachable where a claim
  depends on them.
* The byte channel of the docker exec socket is a `List Nat` of bytes; a
  `select` read-timeout on an empty channel is the `none` branch of
  `next_frame_header`.  Channels that end inside a frame header would make
  the Python `read_exactly` block; such channels are outside the model and
  the corresponding branch returns the channel unchanged.
-/

namespace ConfigureNodes

/-! ## Node-name classification (`re.match(r"^R(\d+)$")` / `^PC\d+$`) -/

/-- `re.match(r"^R\d+$", s)` of `configure_nodes.py`. -/
def isRName (s : String) : Bool :=
  match s.data with
  | c :: rest => c == 'R' && !rest.isEmpty && rest.all Char.isDigit
  | [] => false

/-- `re.match(r"^PC\d+$", s)` of `configure_nodes.py`. -/
def isPCName (s : String) : Bool :=
  match s.data with
  | c :: c2 :: rest => c == 'P' && c2 == 'C' && !rest.isEmpty && rest.all Char.isDigit
  | _ => false

/-- Decimal value of a digit string, used for `int(...group(1))`. -/
def digitsToNat (l : List Char) : Nat :=
  l.foldl (fun acc c => acc * 10 + (c.toNat - '0'.toNat)) 0

/-- `int(re.match(r"^R(\d+)$", s).group(1))`.  On a name that does not match,
the Python raises `AttributeError`; the junk value `0` returned here is never
relied upon: every claim that reaches this function carries a hypothesis that
the name matches. -/
def parseRId (s : String) : Nat :=
  match s.data with
  | 'R' :: rest => digitsToNat rest
  | _ => 0

theorem isRName_not_isPCName {s : String} (h : isRName s = true) :
    isPCName s = false := by
  unfold isRName at h
  unfold isPCName
  cases hs : s.data with
  | nil => rw [hs] at h
  | cons c rest =>
    rw [hs] at h
    cases rest with
    | nil => simp
    | cons c2 rest2 =>
      simp only [Bool.and_eq_true, beq_iff_eq] at h
      obtain ⟨⟨hc, -⟩, -⟩ := h
      subst hc
      simp

/-! ## Association-list primitives (Python insertion-ordered dicts) -/

/-- Lookup in an insertion-ordered dict. -/
def alistGet {κ α : Type} [DecidableEq κ] (m : List (κ × α)) (k : κ) : Option α :=
  match m with
  | [] => none
  | (k', v) :: rest => if k' = k then some v else alistGet rest k

/-- `d[k] = v`: update in place if the key exists, else append. -/
def alistSet {κ α : Type} [DecidableEq κ] (m : List (κ × α)) (k : κ) (v : α) :
    List (κ × α) :=
  match m with
  | [] => [(k, v)]
  | (k', v') :: rest =>
      if k' = k then (k, v) :: rest else (k', v') :: alistSet rest k v

/-- `defaultdict(list)`: `d[k].append(x)`. -/
def alistPush {κ α : Type} [DecidableEq κ] (m : List (κ × List α)) (k : κ) (x : α) :
    List (κ × List α) :=
  match m with
  | [] => [(k, [x])]
  | (k', xs) :: rest =>
      if k' = k then (k', xs ++ [x]) :: rest else (k', xs) :: alistPush rest k x

/-! ## Routing graph (`RouteLink`, `build_routing_graph`) -/

/-- `RouteLink` dataclass: `(node, adapter)`. -/
structure RouteLink where
  node : String
  adapter : String
deriving DecidableEq, Repr

/-- A link endpoint `"node:adapter"` after splitting. -/
abbrev Endpoint := String × String

/-- One entry of `topology["links"]`: exactly two endpoints. -/
abbrev Link := Endpoint × Endpoint

/-- The routing graph: insertion-ordered map node ↦ edge list. -/
abbrev Graph := List (String × List RouteLink)

def graphKeys (g : Graph) : List String := g.map Prod.fst

/-- `graph[u]`, totalized with `[]`; a missing key would be a Python
`KeyError` and every claim keeps lookups inside `graphKeys`. -/
def edgesOf (g : Graph) (u : String) : List RouteLink :=
  (alistGet g u).getD []

/-- `build_routing_graph`: both directions of every link, then one
self-edge tagged `"lo"` for every non-PC node. -/
def build_routing_graph (links : List Link) : Graph :=
  let g : Graph := links.foldl
    (fun g l => alistPush (alistPush g l.1.1 ⟨l.2.1, l.1.2⟩) l.2.1 ⟨l.1.1, l.2.2⟩) []
  g.map (fun kv => if isPCName kv.1 then kv else (kv.1, kv.2 ++ [⟨kv.1, "lo"⟩]))

/-! ## Dijkstra (`dijkstra` of `configure_nodes.py`) -/

/-- `float("inf")` distances: `none` is infinity. -/
def optLt : Option Nat → Option Nat → Bool
  | some a, some b => a < b
  | some _, none => true
  | none, _ => false

/-- The order dual used in proofs: `optLe a b` ↔ `¬ optLt b a`. -/
def optLe : Option Nat → Option Nat → Prop
  | _, none => True
  | none, some _ => False
  | some a, some b => a ≤ b

/-- Python `min(vertices, key=lambda v: distances[v])` on the nonempty list
`v :: vs`: the first element attaining the minimum wins. -/
def pyMinNe (dist : String → Option Nat) (v : String) (vs : List String) : String :=
  vs.foldl (fun acc x => if optLt (dist x) (dist acc) then x else acc) v

/-- The mutable `distances` / `prev_vertices` dictionaries.  They are total
functions here; Python only ever reads keys of the graph (plus the source),
which the correctness invariants below track. -/
structure DState where
  dist : String → Option Nat
  prev : String → Option String

/-- One relaxation `alt_route = distances[curr] + 1; if alt_route < ...`.
`Option.map (· + 1)` matches `inf + 1 = inf`. -/
def relaxEdge (curr : String) (st : DState) (e : RouteLink) : DState :=
  let alt := (st.dist curr).map (· + 1)
  if optLt alt (st.dist e.node) then
    { dist := fun v => if v = e.node then alt else st.dist v
      prev := fun v => if v = e.node then some curr else st.prev v }
  else st

/-- The `while vertices:` loop.  The fuel equals the length of the vertex
list: each iteration removes the extracted vertex, so the fuel never runs
out before the list empties. -/
def dLoopAux (g : Graph) : Nat → List String → DState → DState
  | 0, _, st => st
  | _ + 1, [], st => st
  | fuel + 1, v :: vs, st =>
      let curr := pyMinNe st.dist v vs
      match st.dist curr with
      | none => st
      | some _ =>
          dLoopAux g fuel ((v :: vs).erase curr)
            ((edgesOf g curr).foldl (relaxEdge curr) st)

/-- The backward walk over `prev_vertices`.  Python's `while` has no bound;
the fuel passed by `dijkstra` is proved sufficient because computed
distances strictly decrease along predecessor links. -/
def walkPrev (prev : String → Option String) :
    Nat → String → List String → Option (String × List String)
  | 0, _, _ => none
  | fuel + 1, curr, path =>
      match prev curr with
      | none => some (curr, path)
      | some p => walkPrev prev fuel p (curr :: path)

/-- `dijkstra(graph, source, dest)`. -/
def dijkstra (g : Graph) (source dest : String) : List String :=
  let st0 : DState :=
    { dist := fun v => if v = source then some 0 else none
      prev := fun _ => none }
  let st := dLoopAux g (graphKeys g).length (graphKeys g) st0
  match walkPrev st.prev ((graphKeys g).length + 2) dest [] with
  | none => []
  | some (c, path) => if path.isEmpty then [] else c :: path

/-! ## Frame protocol (`next_frame_header`, `dropwhile_frame`, `takewhile_frame`)

A channel is a list of bytes.  A frame on the wire is an 8-byte header
(1 stream byte, 3 reserved zero bytes, 4-byte big-endian payload length)
followed by the payload, as read by docker's `next_frame_header` /
`read_exactly`. -/

/-- Big-endian 4-byte encoding of a payload length. -/
def be4 (n : Nat) : List Nat :=
  [n / 2 ^ 24 % 256, n / 2 ^ 16 % 256, n / 2 ^ 8 % 256, n % 256]

/-- `struct.unpack(">BxxxL", ...)`: the length from its 4 big-endian bytes. -/
def decode4 (b4 b5 b6 b7 : Nat) : Nat :=
  ((b4 * 256 + b5) * 256 + b6) * 256 + b7

/-- One multiplexed frame: stream tag (1 = stdout, 2 = stderr) and payload. -/
structure Frame where
  tag : Nat
  payload : List Nat
deriving DecidableEq, Repr

def encodeFrame (f : Frame) : List Nat :=
  f.tag :: 0 :: 0 :: 0 :: (be4 f.payload.length ++ f.payload)

def encodeFrames : List Frame → List Nat
  | [] => []
  | f :: fs => encodeFrame f ++ encodeFrames fs

/-- `next_frame_header(socket)`: reads the 8 header bytes and returns
`(stream, size)` plus the remaining channel.  `none` when the channel is
empty (the `select` timeout sentinel); a nonempty channel shorter than a
header would block `read_exactly` and is outside the model. -/
def next_frame_header : List Nat → Option (Nat × Nat × List Nat)
  | b0 :: _ :: _ :: _ :: b4 :: b5 :: b6 :: b7 :: rest =>
      some (b0, decode4 b4 b5 b6 b7, rest)
  | _ => none

/-- `dropwhile_frame`'s `while select(...)` loop with explicit fuel; each
iteration consumes the 8 header bytes, so `ch.length` fuel (used by the
wrapper below) always suffices. -/
def dropwhileAux (p : Nat → Bool) : Nat → List Nat → Nat × List Nat
  | 0, ch => (0, ch)
  | fuel + 1, ch =>
      match next_frame_header ch with
      | none => (0, ch)
      | some (tag, sz, rest) =>
          if p tag then dropwhileAux p fuel (rest.drop sz) else (sz, rest)

/-- `dropwhile_frame(process, predicate)`: returns the size of the first
non-matching frame (its header already consumed) and the rest of the
channel; `0` when the channel drains first. -/
def dropwhile_frame (p : Nat → Bool) (ch : List Nat) : Nat × List Nat :=
  dropwhileAux p ch.length ch

/-- `takewhile_frame` combined with its caller's protocol (the caller reads
each yielded payload with `read_exactly` before requesting the next
element, as `show_command_output` does): the yielded sizes and the channel
left when the generator stops. -/
def takewhileAux (p : Nat → Bool) : Nat → List Nat → List Nat × List Nat
  | 0, ch => ([], ch)
  | fuel + 1, ch =>
      match next_frame_header ch with
      | none => ([], ch)
      | some (tag, sz, rest) =>
          if p tag then
            let r := takewhileAux p fuel (rest.drop sz)
            (sz :: r.1, r.2)
          else ([], rest)

def takewhile_frame (p : Nat → Bool) (ch : List Nat) : List Nat × List Nat :=
  takewhileAux p ch.length ch

/-! ## `send_command` and `subprocess.list2cmdline` -/

/-- The per-character state machine of `subprocess.list2cmdline`:
`(result, bs_buf)`. -/
def l2cStep (st : List Char × List Char) (c : Char) : List Char × List Char :=
  if c = '\\' then (st.1, st.2 ++ [c])
  else if c = '"' then
    (st.1 ++ List.replicate (2 * st.2.length) '\\' ++ ['\\', '"'], [])
  else (st.1 ++ st.2 ++ [c], [])

/-- One argument of `list2cmdline`: quote when it contains a space, a tab,
or is empty; trailing backslashes are emitted once, and doubled again
before a closing quote. -/
def l2cArg (arg : String) : List Char :=
  let needquote :=
    arg.data.contains ' ' || arg.data.contains '\t' || arg.data.isEmpty
  let res := arg.data.foldl l2cStep ([], [])
  (if needquote then ['"'] else []) ++ res.1 ++ res.2 ++
    (if needquote then res.2 ++ ['"'] else [])

/-- `subprocess.list2cmdline(seq)`: arguments joined by single spaces. -/
def list2cmdline (cmd : List String) : String :=
  ⟨List.intercalate [' '] (cmd.map l2cArg)⟩

inductive CmdError where
  | timeout
deriving DecidableEq, Repr

/-- `send_command(process, cmd)`: `writable` is whether `select` reports the
socket writable within `WRITE_TIMEOUT_SEC`.  On timeout it raises before
writing anything; on success the single `sendall` unit is returned. -/
def send_command (writable : Bool) (cmd : List String) : Except CmdError String :=
  if !writable then .error .timeout
  else .ok (list2cmdline cmd ++ "\n")

/-! ## Addressing phases (`NETWORK_MAP` construction) -/

/-- An IPv4 address as four octet fields.  The octet values are the exact
`Nat`s the Python formats into the dotted literal; claims carry bounds
keeping them below 256, where `ipaddress.IPv4Interface` would otherwise
raise. -/
structure IPv4 where
  o1 : Nat
  o2 : Nat
  o3 : Nat
  o4 : Nat
deriving DecidableEq, Repr

/-- An `IPv4Network` key: network address plus prefix length. -/
structure Subnet where
  addr : IPv4
  plen : Nat
deriving DecidableEq, Repr

/-- One node's `NETWORK_MAP` entry: subnet ↦ (own IP, egress adapter). -/
abbrev NodeMap := List (Subnet × IPv4 × String)

/-- `NETWORK_MAP`: node ↦ per-node map, insertion-ordered. -/
abbrev NetworkMap := List (String × NodeMap)

/-- `NETWORK_MAP[node][subnet] = (ip, adapter)` with `defaultdict(dict)`
get-or-create semantics. -/
def nmSet (nm : NetworkMap) (node : String) (k : Subnet) (v : IPv4 × String) :
    NetworkMap :=
  match nm with
  | [] => [(node, [(k, v)])]
  | (n, m) :: rest =>
      if n = node then (n, alistSet m k v) :: rest
      else (n, m) :: nmSet rest node k v

/-- A router's `/32` loopback network `10.10.10.{id+1}/32`. -/
def loNet (rid : Nat) : Subnet := ⟨⟨10, 10, 10, rid + 1⟩, 32⟩

/-- `setup_router_loopbacks`: every non-PC node gets its loopback bound
first.  Iteration is over the container list, i.e. the node names. -/
def setup_router_loopbacks (nodes : List String) (nm : NetworkMap) : NetworkMap :=
  nodes.foldl
    (fun nm node =>
      if isPCName node then nm
      else
        let rid := parseRId node
        nmSet nm node (loNet rid) (⟨10, 10, 10, rid + 1⟩, "lo"))
    nm

/-- The `192.168.{k}.0/24` transit network of the k-th router-router link. -/
def transitNet (k : Nat) : Subnet := ⟨⟨192, 168, k, 0⟩, 24⟩

/-- `setup_router_subnets`: router-router links numbered from 1. -/
def setup_router_subnets (links : List Link) (nm : NetworkMap) : NetworkMap :=
  (links.foldl
    (fun (acc : NetworkMap × Nat) l =>
      if isPCName l.1.1 || isPCName l.2.1 then acc
      else
        let fid := parseRId l.1.1
        let sid := parseRId l.2.1
        let nm1 := nmSet acc.1 l.1.1 (transitNet acc.2) (⟨192, 168, acc.2, fid + 1⟩, l.1.2)
        let nm2 := nmSet nm1 l.2.1 (transitNet acc.2) (⟨192, 168, acc.2, sid + 1⟩, l.2.2)
        (nm2, acc.2 + 1))
    (nm, 1)).1

/-- The `172.25.{rid+1}.0/24` host network of the router with id `rid`. -/
def hostNet (rid : Nat) : Subnet := ⟨⟨172, 25, rid + 1, 0⟩, 24⟩

/-- The `if/elif` endpoint classification of `setup_pc_links`: the PC
endpoint and the router endpoint, when the link has one of each. -/
def classifyPcLink (l : Link) : Option (Endpoint × Endpoint) :=
  let pcF : Option Endpoint := if isPCName l.1.1 then some l.1 else none
  let rF : Option Endpoint :=
    if isPCName l.1.1 then none else if isRName l.1.1 then some l.1 else none
  let pc := if isPCName l.2.1 then some l.2 else pcF
  let r :=
    if isPCName l.2.1 then rF else if isRName l.2.1 then some l.2 else rF
  match pc, r with
  | some p, some q => some (p, q)
  | _, _ => none

/-- `setup_pc_links`: each PC-router link binds `172.25.{rid+1}.{rid+2}/24`
on the PC and `172.25.{rid+1}.{rid+1}/24` on the router (PC entry first,
matching the Python's assignment order). -/
def setup_pc_links (links : List Link) (nm : NetworkMap) : NetworkMap :=
  links.foldl
    (fun nm l =>
      match classifyPcLink l with
      | none => nm
      | some (pcE, rE) =>
          let rid := parseRId rE.1
          let nm1 := nmSet nm pcE.1 (hostNet rid) (⟨172, 25, rid + 1, rid + 2⟩, pcE.2)
          nmSet nm1 rE.1 (hostNet rid) (⟨172, 25, rid + 1, rid + 1⟩, rE.2))
    nm

/-- The addressing phase of `main`: loopbacks, then router-router subnets,
then router-host links, starting from the empty `NETWORK_MAP`. -/
def buildNetworkMap (nodes : List String) (links : List Link) : NetworkMap :=
  setup_pc_links links (setup_router_subnets links (setup_router_loopbacks nodes []))

/-! ## Static route synthesis (`setup_static_routing`) -/

/-- One `ip route` instruction: destination subnet, gateway, egress. -/
structure Route where
  subnet : Subnet
  gateway : IPv4
  iface : String
deriving DecidableEq, Repr

/-- The fatal conditions of `setup_static_routing`: `assert path`,
`assert coverage_intersection`, and the `KeyError`/`StopIteration` a
missing or empty `NETWORK_MAP` entry would raise. -/
inductive SynthError where
  | emptyPath
  | emptyIntersection
  | missingEntry
deriving DecidableEq, Repr

def nodeKeys (m : NodeMap) : List Subnet := m.map Prod.fst

/-- The backward walk of `setup_static_routing` over
`islice(reversed(path), 1, None)`.  `choose` models
`next(iter(set(...) & set(...)))`: Python picks one element of the
intersection in hash-table order; here the intersection is the key list of
the walked node filtered by membership in the anchor's keys, and `choose`
is an arbitrary selection from it (claims assume only `choose l ∈ l`). -/
def synthWalk (choose : List Subnet → Subnet) (nm : NetworkMap) (tgt : Subnet) :
    List String → String → Except SynthError (List (String × Route))
  | [], _ => .ok []
  | node :: rest, anchor =>
      match alistGet nm node, alistGet nm anchor with
      | some mn, some ma =>
          if tgt ∈ nodeKeys mn then synthWalk choose nm tgt rest node
          else
            let inter := (nodeKeys mn).filter (fun k => k ∈ nodeKeys ma)
            if inter = [] then .error .emptyIntersection
            else
              let w := choose inter
              match alistGet ma w, alistGet mn w with
              | some hisV, some ourV => do
                  let rs ← synthWalk choose nm tgt rest node
                  .ok ((node, ⟨tgt, hisV.1, ourV.2⟩) :: rs)
              | _, _ => .error .missingEntry
      | _, _ => .error .missingEntry

/-- Route synthesis for one ordered pair `(src, dst)` of
`setup_static_routing`: the shortest path, the advertised target subnet
(first key of the destination's entry) and the backward walk.  The result
is the list of `(installing node, route)` pairs the Python sends with
`send_command`. -/
def synthPair (choose : List Subnet → Subnet) (g : Graph) (nm : NetworkMap)
    (src dst : String) : Except SynthError (List (String × Route)) :=
  let path := dijkstra g src dst
  match path.reverse with
  | [] => .error .emptyPath
  | last :: restRev =>
      match alistGet nm last with
      | none => .error .missingEntry
      | some m =>
          match m.head? with
          | none => .error .missingEntry
          | some (tgt, _) => synthWalk choose nm tgt restRev last

/-! ## Order lemmas for `optLt` / `optLe` -/

theorem optLe_refl (a : Option Nat) : optLe a a := by
  cases a <;> simp [optLe]

theorem optLe_trans {a b c : Option Nat} (h1 : optLe a b) (h2 : optLe b c) :
    optLe a c := by
  cases a <;> cases b <;> cases c <;> simp_all [optLe] <;> omega

theorem optLt_of_eq_true {a b : Option Nat} (h : optLt a b = true) : optLe a b := by
  cases a <;> cases b <;> simp_all [optLt, optLe] <;> omega

theorem optLe_of_not_lt {a b : Option Nat} (h : optLt a b = false) : optLe b a := by
  cases a <;> cases b <;> simp_all [optLt, optLe]

theorem optLe_some_iff {a : Option Nat} {n : Nat} :
    optLe a (some n) ↔ ∃ m, a = some m ∧ m ≤ n := by
  cases a <;> simp [optLe]

theorem optLe_some_mono {m n : Nat} (h : m ≤ n) : optLe (some m) (some n) := h

/-! ## `pyMinNe` (Python `min` with key) -/

theorem pyMinNe_mem (dist : String → Option Nat) (v : String) (vs : List String) :
    pyMinNe dist v vs ∈ v :: vs := by
  unfold pyMinNe
  induction vs generalizing v with
  | nil => simp
  | cons x xs ih =>
    simp only [List.foldl_cons]
    by_cases h : optLt (dist x) (dist v) = true
    · simp only [h, if_pos rfl]
      rcases (by simpa using ih x : _ ∨ _) with h' | h'
      · simp [h']
      · simp [h']
    · simp only [Bool.not_eq_true] at h
      simp only [h]
      rcases (by simpa using ih v : _ ∨ _) with h' | h'
      · simp [h']
      · simp [h']

theorem pyMinNe_min (dist : String → Option Nat) (v : String) (vs : List String) :
    ∀ x ∈ v :: vs, optLe (dist (pyMinNe dist v vs)) (dist x) := by
  unfold pyMinNe
  induction vs generalizing v with
  | nil =>
    intro x hx
    simp only [List.mem_singleton] at hx
    subst hx
    simp [optLe_refl]
  | cons y ys ih =>
    intro x hx
    simp only [List.mem_cons] at hx
    simp only [List.foldl_cons]
    by_cases h : optLt (dist y) (dist v) = true
    · simp only [h, if_pos rfl]
      rcases hx with hx | hx | hx
      · subst hx
        exact optLe_trans (ih y y (by simp)) (optLt_of_eq_true h)
      · subst hx
        exact ih x x (by simp)
      · exact ih y x (by simp [hx])
    · simp only [Bool.not_eq_true] at h
      simp only [h]
      rcases hx with hx | hx | hx
      · subst hx
        exact ih x x (by simp)
      · subst hx
        exact optLe_trans (ih v v (by simp)) (optLe_of_not_lt h)
      · exact ih v x (by simp [hx])

/-! ## Graph reachability specification -/

/-- `u` has an edge to `v` in the routing graph. -/
def hasEdge (g : Graph) (u v : String) : Prop :=
  v ∈ (edgesOf g u).map RouteLink.node

instance (g : Graph) (u v : String) : Decidable (hasEdge g u v) := by
  unfold hasEdge; infer_instance

/-- Every edge target is itself a key of the graph (true of every graph
`build_routing_graph` produces). -/
def ClosedGraph (g : Graph) : Prop :=
  ∀ kv ∈ g, ∀ e ∈ kv.2, e.node ∈ graphKeys g

instance (g : Graph) : Decidable (ClosedGraph g) := by
  unfold ClosedGraph; infer_instance

/-- A walk of exactly `n` edges from `s` to the indicated node. -/
inductive ReachN (g : Graph) (s : String) : String → Nat → Prop
  | zero : ReachN g s s 0
  | succ {u v : String} {n : Nat} :
      ReachN g s u n → hasEdge g u v → ReachN g s v (n + 1)

def Reachable (g : Graph) (s v : String) : Prop := ∃ n, ReachN g s v n

/-- `n` is the unweighted shortest-path distance from `s` to `v`. -/
def IsShortest (g : Graph) (s v : String) (n : Nat) : Prop :=
  ReachN g s v n ∧ ∀ m, ReachN g s v m → n ≤ m

theorem alistGet_mem {κ α : Type} [DecidableEq κ] {m : List (κ × α)} {k : κ}
    {v : α} (h : alistGet m k = some v) : (k, v) ∈ m := by
  induction m with
  | nil => simp [alistGet] at h
  | cons kv rest ih =>
    obtain ⟨k', v'⟩ := kv
    unfold alistGet at h
    by_cases hk : k' = k
    · rw [if_pos hk] at h
      cases h
      subst hk
      simp
    · rw [if_neg hk] at h
      exact List.mem_cons_of_mem _ (ih h)

theorem hasEdge_mem_keys {g : Graph} (hc : ClosedGraph g) {u v : String}
    (h : hasEdge g u v) : v ∈ graphKeys g := by
  unfold hasEdge edgesOf at h
  cases hg : alistGet g u with
  | none => rw [hg] at h; simp at h
  | some es =>
    rw [hg] at h
    simp only [Option.getD_some, List.mem_map] at h
    obtain ⟨e, he, rfl⟩ := h
    exact hc (u, es) (alistGet_mem hg) e he

theorem reach_mem_keys {g : Graph} {s x : String} {L : Nat} (hc : ClosedGraph g)
    (hs : s ∈ graphKeys g) (h : ReachN g s x L) : x ∈ graphKeys g := by
  induction h with
  | zero => exact hs
  | succ _ he _ => exact hasEdge_mem_keys hc he

theorem reachN_zero {g : Graph} {s x : String} (h : ReachN g s x 0) : x = s := by
  cases h
  rfl

theorem exists_isShortest {g : Graph} {s v : String} (h : Reachable g s v) :
    ∃ n, IsShortest g s v n := by
  classical
  have hne : {n | ReachN g s v n}.Nonempty := h
  refine ⟨sInf {n | ReachN g s v n}, Nat.sInf_mem hne, ?_⟩
  intro m hm
  exact Nat.sInf_le hm

/-! ## Relaxation-fold lemmas -/

theorem relaxEdge_dist_curr {curr : String} {st : DState} {dc : Nat}
    (hdc : st.dist curr = some dc) (e : RouteLink) :
    (relaxEdge curr st e).dist curr = some dc := by
  simp only [relaxEdge, hdc, Option.map_some]
  split
  · next hlt =>
    simp only
    split
    · next hv =>
      rw [← hv, hdc] at hlt
      simp [optLt] at hlt
    · exact hdc
  · exact hdc

theorem foldRelax_dist_curr {curr : String} {dc : Nat} :
    ∀ (es : List RouteLink) (st : DState), st.dist curr = some dc →
      (es.foldl (relaxEdge curr) st).dist curr = some dc := by
  intro es
  induction es with
  | nil => intro st h; exact h
  | cons e es ih =>
    intro st h
    exact ih _ (relaxEdge_dist_curr h e)

/-- Single relaxation step: either nothing changed at `v`, or `v` is the
edge's target, strictly improved to `dc + 1` with predecessor `curr`. -/
theorem relaxEdge_cases {curr : String} {st : DState} {dc : Nat}
    (hdc : st.dist curr = some dc) (e : RouteLink) (v : String) :
    ((relaxEdge curr st e).dist v = st.dist v ∧
      (relaxEdge curr st e).prev v = st.prev v) ∨
    (v = e.node ∧ (relaxEdge curr st e).dist v = some (dc + 1) ∧
      (relaxEdge curr st e).prev v = some curr ∧
      optLt (some (dc + 1)) (st.dist v) = true) := by
  simp only [relaxEdge, hdc, Option.map_some]
  split
  · next hlt =>
    by_cases hv : v = e.node
    · right
      exact ⟨hv, by simp [hv], by simp [hv], by rwa [hv]⟩
    · left
      constructor <;> simp [hv]
  · left
    exact ⟨rfl, rfl⟩

/-- Fold dichotomy: after relaxing all of `curr`'s edges, each vertex is
either untouched or was strictly improved to `dc + 1` via an edge of
`curr`. -/
theorem foldRelax_cases {curr : String} {dc : Nat} :
    ∀ (es : List RouteLink) (st : DState), st.dist curr = some dc → ∀ v,
      ((es.foldl (relaxEdge curr) st).dist v = st.dist v ∧
        (es.foldl (relaxEdge curr) st).prev v = st.prev v) ∨
      (v ∈ es.map RouteLink.node ∧
        (es.foldl (relaxEdge curr) st).dist v = some (dc + 1) ∧
        (es.foldl (relaxEdge curr) st).prev v = some curr ∧
        optLt (some (dc + 1)) (st.dist v) = true) := by
  intro es
  induction es with
  | nil =>
    intro st _ v
    exact Or.inl ⟨rfl, rfl⟩
  | cons e es ih =>
    intro st hdc v
    have hdc1 : (relaxEdge curr st e).dist curr = some dc :=
      relaxEdge_dist_curr hdc e
    rcases ih (relaxEdge curr st e) hdc1 v with ⟨hd, hp⟩ | ⟨hm, hd, hp, hlt⟩
    · rcases relaxEdge_cases hdc e v with ⟨hd0, hp0⟩ | ⟨hv, hd0, hp0, hlt0⟩
      · exact Or.inl ⟨by rw [List.foldl_cons, hd, hd0],
          by rw [List.foldl_cons, hp, hp0]⟩
      · exact Or.inr ⟨by simp [hv], by rw [List.foldl_cons, hd, hd0],
          by rw [List.foldl_cons, hp, hp0], hlt0⟩
    · rcases relaxEdge_cases hdc e v with ⟨hd0, hp0⟩ | ⟨hv, hd0, hp0, hlt0⟩
      · exact Or.inr ⟨by simp [hm], by rw [List.foldl_cons, hd],
          by rw [List.foldl_cons, hp], by rwa [hd0] at hlt⟩
      · rw [hd0] at hlt
        simp [optLt] at hlt


/-- Relaxation never increases a distance. -/
theorem foldRelax_mono {curr : String} {dc : Nat} (es : List RouteLink)
    (st : DState) (hdc : st.dist curr = some dc) (v : String) :
    optLe ((es.foldl (relaxEdge curr) st).dist v) (st.dist v) := by
  rcases foldRelax_cases es st hdc v with ⟨hd, -⟩ | ⟨-, hd, -, hlt⟩
  · rw [hd]; exact optLe_refl _
  · rw [hd]; exact optLt_of_eq_true hlt

/-- After the fold, every edge target of `curr` is relaxed to at most
`dc + 1`. -/
theorem foldRelax_complete {curr : String} {dc : Nat} :
    ∀ (es : List RouteLink) (st : DState), st.dist curr = some dc →
      ∀ e ∈ es, optLe ((es.foldl (relaxEdge curr) st).dist e.node) (some (dc + 1)) := by
  intro es
  induction es with
  | nil => intro st _ e he; simp at he
  | cons e' es ih =>
    intro st hdc e he
    have hdc1 : (relaxEdge curr st e').dist curr = some dc :=
      relaxEdge_dist_curr hdc e'
    rcases List.mem_cons.mp he with heq | he'
    · rw [heq]
      have hstep : optLe ((relaxEdge curr st e').dist e'.node) (some (dc + 1)) := by
        simp only [relaxEdge, hdc, Option.map_some]
        split
        · next hlt => simp [optLe]
        · next hlt => exact optLe_of_not_lt (by simpa using hlt)
      exact optLe_trans (foldRelax_mono es _ hdc1 e'.node) hstep
    · exact ih _ hdc1 e he'

/-! ## The Dijkstra loop invariant -/

/-- Invariant of the `while vertices:` loop.  `V` is the remaining vertex
list; vertices off `V` are settled with exact shortest distances and fully
relaxed outgoing edges; predecessor links record one strictly improving
edge from a settled vertex. -/
structure DInv (g : Graph) (s : String) (V : List String) (st : DState) : Prop where
  vsub : ∀ v ∈ V, v ∈ graphKeys g
  vdup : V.Nodup
  src_dist : st.dist s = some 0
  src_prev : st.prev s = none
  dmem : ∀ v n, st.dist v = some n → v ∈ graphKeys g
  upper : ∀ v n, st.dist v = some n → ReachN g s v n
  settled : ∀ v, v ∈ graphKeys g → v ∉ V → ∃ n, st.dist v = some n ∧ IsShortest g s v n
  relaxed : ∀ u, u ∉ V → ∀ m, st.dist u = some m →
    ∀ v, hasEdge g u v → optLe (st.dist v) (some (m + 1))
  reached : ∀ v n, st.dist v = some n → v = s ∨ ∃ u, st.prev v = some u
  plink : ∀ v u, st.prev v = some u →
    hasEdge g u v ∧ u ∉ V ∧ ∃ m, st.dist u = some m ∧ st.dist v = some (m + 1)
  dbound : ∀ v n, st.dist v = some n → n + V.length ≤ (graphKeys g).length

/-- Any walk from the source into the remaining vertex set is at least as
long as the minimum remaining tentative distance. -/
theorem reach_min {g : Graph} {s : String} {V : List String} {st : DState}
    (inv : DInv g s V st) (hc : ClosedGraph g) (hs : s ∈ graphKeys g)
    {curr : String} (hmin : ∀ x ∈ V, optLe (st.dist curr) (st.dist x)) :
    ∀ {x : String} {L : Nat}, ReachN g s x L → x ∈ V → optLe (st.dist curr) (some L) := by
  intro x L hreach
  induction hreach with
  | zero =>
    intro hsV
    have := hmin s hsV
    rwa [inv.src_dist] at this
  | succ hu he ih =>
    next u x' n =>
    intro hxV
    by_cases huV : u ∈ V
    · exact optLe_trans (ih huV) (optLe_some_mono (Nat.le_succ n))
    · have humem : u ∈ graphKeys g := reach_mem_keys hc hs hu
      obtain ⟨m, hm, hshort⟩ := inv.settled u humem huV
      have hmn : m ≤ n := hshort.2 n hu
      have hrel := inv.relaxed u huV m hm x' he
      exact optLe_trans (optLe_trans (hmin x' hxV) hrel)
        (optLe_some_mono (Nat.succ_le_succ hmn))

/-- The extracted minimum has an exact shortest distance. -/
theorem extract_shortest {g : Graph} {s : String} {V : List String} {st : DState}
    (inv : DInv g s V st) (hc : ClosedGraph g) (hs : s ∈ graphKeys g)
    {curr : String} {dc : Nat} (hcurrV : curr ∈ V)
    (hmin : ∀ x ∈ V, optLe (st.dist curr) (st.dist x))
    (hdc : st.dist curr = some dc) : IsShortest g s curr dc := by
  refine ⟨inv.upper _ _ hdc, fun m hm => ?_⟩
  have := reach_min inv hc hs hmin hm hcurrV
  rwa [hdc] at this

/-- One full loop iteration (extract the minimum, relax its edges, remove
it) preserves the invariant. -/
theorem dinv_step {g : Graph} {s : String} {V : List String} {st : DState}
    (hc : ClosedGraph g) (hs : s ∈ graphKeys g) (inv : DInv g s V st)
    {curr : String} {dc : Nat} (hcurrV : curr ∈ V)
    (hmin : ∀ x ∈ V, optLe (st.dist curr) (st.dist x))
    (hdc : st.dist curr = some dc) :
    DInv g s (V.erase curr) ((edgesOf g curr).foldl (relaxEdge curr) st) := by
  set st' := (edgesOf g curr).foldl (relaxEdge curr) st with hst'
  have hshort : IsShortest g s curr dc := extract_shortest inv hc hs hcurrV hmin hdc
  have hstc : st'.dist curr = some dc := foldRelax_dist_curr _ _ hdc
  have hedge_of_mem : ∀ v, v ∈ (edgesOf g curr).map RouteLink.node → hasEdge g curr v :=
    fun v hv => hv
  -- distances of already-settled vertices cannot change
  have hsettled_frozen : ∀ v, v ∈ graphKeys g → v ∉ V →
      st'.dist v = st.dist v ∧ st'.prev v = st.prev v := by
    intro v hvk hvV
    rcases foldRelax_cases (edgesOf g curr) st hdc v with h | ⟨hm, hd, hp, hlt⟩
    · exact h
    · exfalso
      obtain ⟨n, hn, hsh⟩ := inv.settled v hvk hvV
      rw [hn] at hlt
      simp only [optLt, decide_eq_true_eq] at hlt
      have : ReachN g s v (dc + 1) :=
        ReachN.succ (inv.upper _ _ hdc) (hedge_of_mem v hm)
      have := hsh.2 _ this
      omega
  have hVne : V ≠ [] := List.ne_nil_of_mem hcurrV
  have hlenV : 1 ≤ V.length := by
    cases V with
    | nil => exact absurd rfl hVne
    | cons a l => simp
  have herase_len : (V.erase curr).length = V.length - 1 :=
    List.length_erase_of_mem hcurrV
  refine ⟨?_, ?_, ?_, ?_, ?_, ?_, ?_, ?_, ?_, ?_, ?_⟩
  · intro v hv
    exact inv.vsub v (List.mem_of_mem_erase hv)
  · exact inv.vdup.erase curr
  · rcases foldRelax_cases (edgesOf g curr) st hdc s with ⟨hd, -⟩ | ⟨-, -, -, hlt⟩
    · rw [hd]; exact inv.src_dist
    · rw [inv.src_dist] at hlt
      simp [optLt] at hlt
  · rcases foldRelax_cases (edgesOf g curr) st hdc s with ⟨-, hp⟩ | ⟨-, -, -, hlt⟩
    · rw [hp]; exact inv.src_prev
    · rw [inv.src_dist] at hlt
      simp [optLt] at hlt
  · intro v n hv
    rcases foldRelax_cases (edgesOf g curr) st hdc v with ⟨hd, -⟩ | ⟨hm, -, -, -⟩
    · rw [hd] at hv
      exact inv.dmem v n hv
    · exact hasEdge_mem_keys hc (hedge_of_mem v hm)
  · intro v n hv
    rcases foldRelax_cases (edgesOf g curr) st hdc v with ⟨hd, -⟩ | ⟨hm, hd, -, -⟩
    · rw [hd] at hv
      exact inv.upper v n hv
    · rw [hd] at hv
      cases hv
      exact ReachN.succ (inv.upper _ _ hdc) (hedge_of_mem v hm)
  · intro v hvk hvE
    by_cases hvV : v ∈ V
    · have hveq : v = curr := by
        by_contra hne
        exact hvE (inv.vdup.mem_erase_iff.mpr ⟨hne, hvV⟩)
      subst hveq
      exact ⟨dc, hstc, hshort⟩
    · obtain ⟨n, hn, hsh⟩ := inv.settled v hvk hvV
      exact ⟨n, by rw [(hsettled_frozen v hvk hvV).1]; exact hn, hsh⟩
  · intro u huE m hm v he
    by_cases huV : u ∈ V
    · have hueq : u = curr := by
        by_contra hne
        exact huE (inv.vdup.mem_erase_iff.mpr ⟨hne, huV⟩)
      subst hueq
      rw [hstc] at hm
      cases hm
      unfold hasEdge at he
      simp only [List.mem_map] at he
      obtain ⟨e, hee, rfl⟩ := he
      exact foldRelax_complete _ _ hdc e hee
    · have humem : u ∈ graphKeys g := inv.dmem u m (by
        rw [← (hsettled_frozen u ?_ huV).1]
        · exact hm
        · rcases foldRelax_cases (edgesOf g curr) st hdc u with ⟨hd, -⟩ | ⟨hmm, -, -, -⟩
          · rw [hd] at hm; exact inv.dmem u m hm
          · exact hasEdge_mem_keys hc (hedge_of_mem u hmm))
      have hfrozen := (hsettled_frozen u humem huV).1
      rw [hfrozen] at hm
      have hrel := inv.relaxed u huV m hm v he
      exact optLe_trans (foldRelax_mono _ _ hdc v) hrel
  · intro v n hv
    rcases foldRelax_cases (edgesOf g curr) st hdc v with ⟨hd, hp⟩ | ⟨-, -, hp, -⟩
    · rw [hd] at hv
      rcases inv.reached v n hv with h | ⟨u, hu⟩
      · exact Or.inl h
      · exact Or.inr ⟨u, by rw [hp]; exact hu⟩
    · exact Or.inr ⟨curr, hp⟩
  · intro v u hp
    rcases foldRelax_cases (edgesOf g curr) st hdc v with ⟨hd, hpu⟩ | ⟨hm, hd, hpu, -⟩
    · rw [hpu] at hp
      obtain ⟨he, huV, m, hmu, hmv⟩ := inv.plink v u hp
      have humem : u ∈ graphKeys g := inv.dmem u m hmu
      refine ⟨he, fun hx => huV (List.mem_of_mem_erase hx), m, ?_, ?_⟩
      · rw [(hsettled_frozen u humem huV).1]; exact hmu
      · rw [hd]; exact hmv
    · rw [hpu] at hp
      cases hp
      refine ⟨hedge_of_mem v hm, ?_, dc, hstc, by rw [hd]⟩
      intro hx
      exact (inv.vdup.mem_erase_iff.mp hx).1 rfl
  · intro v n hv
    rw [herase_len]
    rcases foldRelax_cases (edgesOf g curr) st hdc v with ⟨hd, -⟩ | ⟨-, hd, -, -⟩
    · rw [hd] at hv
      have := inv.dbound v n hv
      omega
    · rw [hd] at hv
      cases hv
      have := inv.dbound curr dc hdc
      omega

/-- What holds of the state when the `while vertices:` loop exits. -/
structure DPost (g : Graph) (s : String) (st : DState) : Prop where
  src_dist : st.dist s = some 0
  src_prev : st.prev s = none
  dmem : ∀ v n, st.dist v = some n → v ∈ graphKeys g
  upper : ∀ v n, st.dist v = some n → ReachN g s v n
  opt : ∀ v n, st.dist v = some n → IsShortest g s v n
  reach_some : ∀ v, v ∈ graphKeys g → Reachable g s v → ∃ n, st.dist v = some n
  reached : ∀ v n, st.dist v = some n → v = s ∨ ∃ u, st.prev v = some u
  plink : ∀ v u, st.prev v = some u →
    hasEdge g u v ∧ ∃ m, st.dist u = some m ∧ st.dist v = some (m + 1)
  dbound : ∀ v n, st.dist v = some n → n ≤ (graphKeys g).length

/-- Exiting with an empty vertex list or on the all-infinite break yields
the postcondition. -/
theorem dpost_of_dinv_nil {g : Graph} {s : String} {st : DState}
    (inv : DInv g s [] st) : DPost g s st := by
  refine ⟨inv.src_dist, inv.src_prev, inv.dmem, inv.upper, ?_, ?_, inv.reached, ?_, ?_⟩
  · intro v n hv
    obtain ⟨n', hn', hsh⟩ := inv.settled v (inv.dmem v n hv) (by simp)
    rw [hv] at hn'
    cases hn'
    exact hsh
  · intro v hvk _
    obtain ⟨n, hn, -⟩ := inv.settled v hvk (by simp)
    exact ⟨n, hn⟩
  · intro v u hp
    obtain ⟨he, -, m, hm, hv⟩ := inv.plink v u hp
    exact ⟨he, m, hm, hv⟩
  · intro v n hv
    have := inv.dbound v n hv
    simpa using this.trans (by simp)

/-- The break case: the minimum remaining tentative distance is infinite,
so every remaining vertex is unreachable. -/
theorem dpost_of_break {g : Graph} {s : String} {V : List String} {st : DState}
    (hc : ClosedGraph g) (hs : s ∈ graphKeys g) (inv : DInv g s V st)
    {curr : String} (hmin : ∀ x ∈ V, optLe (st.dist curr) (st.dist x))
    (hnone : st.dist curr = none) : DPost g s st := by
  have hallnone : ∀ x ∈ V, st.dist x = none := by
    intro x hx
    have := hmin x hx
    rw [hnone] at this
    cases hdx : st.dist x with
    | none => rfl
    | some m => rw [hdx] at this; exact absurd this (by simp [optLe])
  refine ⟨inv.src_dist, inv.src_prev, inv.dmem, inv.upper, ?_, ?_, inv.reached, ?_, ?_⟩
  · intro v n hv
    have hvV : v ∉ V := by
      intro hvV
      rw [hallnone v hvV] at hv
      cases hv
    obtain ⟨n', hn', hsh⟩ := inv.settled v (inv.dmem v n hv) hvV
    rw [hv] at hn'
    cases hn'
    exact hsh
  · intro v hvk hr
    by_cases hvV : v ∈ V
    · exfalso
      obtain ⟨L, hL⟩ := hr
      have := reach_min inv hc hs hmin hL hvV
      rw [hnone] at this
      exact absurd this (by simp [optLe])
    · obtain ⟨n, hn, -⟩ := inv.settled v hvk hvV
      exact ⟨n, hn⟩
  · intro v u hp
    obtain ⟨he, -, m, hm, hv⟩ := inv.plink v u hp
    exact ⟨he, m, hm, hv⟩
  · intro v n hv
    have := inv.dbound v n hv
    omega

/-- Running the loop from any invariant state yields the postcondition. -/
theorem dloop_post {g : Graph} {s : String} (hc : ClosedGraph g)
    (hs : s ∈ graphKeys g) :
    ∀ (fuel : Nat) (V : List String) (st : DState), V.length ≤ fuel →
      DInv g s V st → DPost g s (dLoopAux g fuel V st) := by
  intro fuel
  induction fuel with
  | zero =>
    intro V st hlen inv
    have hV : V = [] := List.length_eq_zero.mp (Nat.le_zero.mp hlen)
    subst hV
    exact dpost_of_dinv_nil inv
  | succ fuel ih =>
    intro V st hlen inv
    cases V with
    | nil => exact dpost_of_dinv_nil inv
    | cons v vs =>
      have hmin := pyMinNe_min st.dist v vs
      have hmem := pyMinNe_mem st.dist v vs
      cases hdc : st.dist (pyMinNe st.dist v vs) with
      | none =>
        have : dLoopAux g (fuel + 1) (v :: vs) st = st := by
          simp only [dLoopAux, hdc]
        rw [this]
        exact dpost_of_break hc hs inv hmin hdc
      | some dc =>
        have hstep : dLoopAux g (fuel + 1) (v :: vs) st =
            dLoopAux g fuel ((v :: vs).erase (pyMinNe st.dist v vs))
              ((edgesOf g (pyMinNe st.dist v vs)).foldl
                (relaxEdge (pyMinNe st.dist v vs)) st) := by
          simp only [dLoopAux, hdc]
        rw [hstep]
        have herase : ((v :: vs).erase (pyMinNe st.dist v vs)).length ≤ fuel := by
          rw [List.length_erase_of_mem hmem]
          simpa using Nat.le_of_succ_le_succ hlen
        exact ih _ _ herase (dinv_step hc hs inv hmem hmin hdc)

/-- The initial state satisfies the invariant. -/
theorem dinv_init {g : Graph} {s : String} (hnd : (graphKeys g).Nodup)
    (hs : s ∈ graphKeys g) :
    DInv g s (graphKeys g)
      { dist := fun v => if v = s then some 0 else none
        prev := fun _ => none } := by
  refine ⟨fun v hv => hv, hnd, by simp, rfl, ?_, ?_, ?_, ?_, ?_, ?_, ?_⟩
  · intro v n hv
    by_cases h : v = s
    · subst h; exact hs
    · simp [h] at hv
  · intro v n hv
    by_cases h : v = s
    · subst h
      simp only [if_pos rfl] at hv
      cases hv
      exact ReachN.zero
    · simp [h] at hv
  · intro v hvk hvV
    exact absurd hvk hvV
  · intro u huV m hm v he
    exfalso
    by_cases h : u = s
    · subst h
      exact huV hs
    · simp [h] at hm
  · intro v n hv
    by_cases h : v = s
    · exact Or.inl h
    · simp [h] at hv
  · intro v u hp
    cases hp
  · intro v n hv
    by_cases h : v = s
    · subst h
      simp only [if_pos rfl] at hv
      cases hv
      simp
    · simp [h] at hv

/-! ## Path reconstruction -/

/-- Following predecessors from a vertex at tentative distance `n` reaches
the source in exactly `n` steps and yields the node sequence between. -/
theorem walk_spec {g : Graph} {s : String} {st : DState} (post : DPost g s st) :
    ∀ (n : Nat) (d : String), st.dist d = some n →
      ∀ (fuel : Nat) (acc : List String), n < fuel →
        ∃ q, walkPrev st.prev fuel d acc = some (s, q ++ acc) ∧
          q.length = n ∧ (∀ x ∈ q, x ∈ graphKeys g) ∧
          (n ≠ 0 → q.getLast? = some d) := by
  intro n
  induction n with
  | zero =>
    intro d hd fuel acc hfuel
    have hds : d = s := reachN_zero (post.upper d 0 hd)
    obtain ⟨fuel, rfl⟩ := Nat.exists_eq_succ_of_ne_zero (Nat.pos_iff_ne_zero.mp hfuel)
    refine ⟨[], ?_, rfl, by simp, by simp⟩
    rw [hds]
    simp [walkPrev, post.src_prev]
  | succ n ih =>
    intro d hd fuel acc hfuel
    have hdns : d ≠ s := by
      intro h
      subst h
      rw [post.src_dist] at hd
      cases hd
    obtain ⟨u, hu⟩ := (post.reached d _ hd).resolve_left hdns
    obtain ⟨-, m, hmu, hmd⟩ := post.plink d u hu
    rw [hd] at hmd
    cases hmd
    obtain ⟨fuel, rfl⟩ := Nat.exists_eq_succ_of_ne_zero
      (Nat.pos_iff_ne_zero.mp (Nat.lt_of_le_of_lt (Nat.zero_le _) hfuel))
    obtain ⟨q, hq, hlen, hmem, -⟩ :=
      ih u hmu fuel (d :: acc) (Nat.lt_of_succ_lt_succ hfuel)
    refine ⟨q ++ [d], ?_, by simp [hlen], ?_, ?_⟩
    · have : walkPrev st.prev (fuel + 1) d acc = walkPrev st.prev fuel u (d :: acc) := by
        simp [walkPrev, hu]
      rw [this, hq]
      simp
    · intro x hx
      rcases List.mem_append.mp hx with hx | hx
      · exact hmem x hx
      · simp only [List.mem_singleton] at hx
        rw [hx]
        exact post.dmem d _ hd
    · intro
      simp

/-- The unreachable (or self) destination case: no predecessor chain, so
the reconstructed path is empty. -/
theorem walkPrev_no_prev {st : DState} {d : String} (h : st.prev d = none)
    (fuel : Nat) (hf : 0 < fuel) : walkPrev st.prev fuel d [] = some (d, []) := by
  obtain ⟨fuel, rfl⟩ := Nat.exists_eq_succ_of_ne_zero (Nat.pos_iff_ne_zero.mp hf)
  simp [walkPrev, h]

/-- The full correctness of `dijkstra`: empty output for unreachable
destinations, and a shortest path `s :: q` otherwise. -/
theorem dijkstra_cases {g : Graph} (s d : String) (hc : ClosedGraph g)
    (hnd : (graphKeys g).Nodup) (hs : s ∈ graphKeys g) :
    (¬ Reachable g s d → dijkstra g s d = []) ∧
    (d = s → dijkstra g s d = []) ∧
    (d ∈ graphKeys g → d ≠ s → Reachable g s d →
      ∃ n q, IsShortest g s d n ∧ dijkstra g s d = s :: q ∧
        q.length = n ∧ q.getLast? = some d ∧ ∀ x ∈ q, x ∈ graphKeys g) := by
  have post := dloop_post hc hs (graphKeys g).length (graphKeys g) _
    (Nat.le_refl _) (dinv_init hnd hs)
  refine ⟨?_, ?_, ?_⟩
  · intro hur
    have hdist : (dLoopAux g (graphKeys g).length (graphKeys g)
        { dist := fun v => if v = s then some 0 else none
          prev := fun _ => none }).dist d = none := by
      cases hdd : (dLoopAux g (graphKeys g).length (graphKeys g)
          { dist := fun v => if v = s then some 0 else none
            prev := fun _ => none }).dist d with
      | none => rfl
      | some n => exact absurd ⟨n, post.upper d n hdd⟩ hur
    have hprev : (dLoopAux g (graphKeys g).length (graphKeys g)
        { dist := fun v => if v = s then some 0 else none
          prev := fun _ => none }).prev d = none := by
      cases hpd : (dLoopAux g (graphKeys g).length (graphKeys g)
          { dist := fun v => if v = s then some 0 else none
            prev := fun _ => none }).prev d with
      | none => rfl
      | some u =>
        obtain ⟨-, m, -, hmd⟩ := post.plink d u hpd
        rw [hdist] at hmd
        cases hmd
    show dijkstra g s d = []
    simp only [dijkstra]
    rw [walkPrev_no_prev hprev _ (by omega)]
    simp
  · intro hds
    show dijkstra g s d = []
    simp only [dijkstra]
    rw [hds]
    rw [walkPrev_no_prev post.src_prev _ (by omega)]
    simp
  · intro hdk hdns hr
    obtain ⟨n, hn⟩ := post.reach_some d hdk hr
    have hsh := post.opt d n hn
    have hnz : n ≠ 0 := by
      intro h
      subst h
      exact hdns (reachN_zero (post.upper d 0 hn))
    have hfuel : n < (graphKeys g).length + 2 := by
      have := post.dbound d n hn
      omega
    obtain ⟨q, hq, hlen, hmem, hlast⟩ := walk_spec post n d hn _ [] hfuel
    rw [List.append_nil] at hq
    have hqne : q ≠ [] := by
      intro h
      rw [h] at hlen
      exact hnz hlen.symm
    refine ⟨n, q, hsh, ?_, hlen, hlast hnz, hmem⟩
    show dijkstra g s d = s :: q
    simp only [dijkstra]
    rw [hq]
    simp [List.isEmpty_iff, hqne]

/-- The source's entries are never touched by the loop: its distance stays
`0` and its predecessor stays unset (a strict improvement below `0` is
impossible). -/
theorem relaxEdge_src {s curr : String} {st : DState} (e : RouteLink)
    (hd : st.dist s = some 0) (hp : st.prev s = none) :
    (relaxEdge curr st e).dist s = some 0 ∧ (relaxEdge curr st e).prev s = none := by
  simp only [relaxEdge]
  split
  · next hlt =>
    by_cases hse : s = e.node
    · exfalso
      rw [← hse, hd] at hlt
      cases halt : (st.dist curr).map (· + 1) with
      | none => rw [halt] at hlt; simp [optLt] at hlt
      | some a => rw [halt] at hlt; simp [optLt] at hlt
    · constructor <;> simp [hse, hd, hp]
  · exact ⟨hd, hp⟩

theorem foldRelax_src {s curr : String} :
    ∀ (es : List RouteLink) (st : DState), st.dist s = some 0 → st.prev s = none →
      (es.foldl (relaxEdge curr) st).dist s = some 0 ∧
      (es.foldl (relaxEdge curr) st).prev s = none := by
  intro es
  induction es with
  | nil => intro st hd hp; exact ⟨hd, hp⟩
  | cons e es ih =>
    intro st hd hp
    obtain ⟨hd', hp'⟩ := relaxEdge_src e hd hp
    exact ih _ hd' hp'

theorem dloop_src {g : Graph} {s : String} :
    ∀ (fuel : Nat) (V : List String) (st : DState),
      st.dist s = some 0 → st.prev s = none →
      (dLoopAux g fuel V st).dist s = some 0 ∧
      (dLoopAux g fuel V st).prev s = none := by
  intro fuel
  induction fuel with
  | zero => intro V st hd hp; exact ⟨hd, hp⟩
  | succ fuel ih =>
    intro V st hd hp
    cases V with
    | nil => exact ⟨hd, hp⟩
    | cons v vs =>
      cases hdc : st.dist (pyMinNe st.dist v vs) with
      | none => simp only [dLoopAux, hdc]; exact ⟨hd, hp⟩
      | some dc =>
        simp only [dLoopAux, hdc]
        obtain ⟨hd', hp'⟩ := foldRelax_src (edgesOf g (pyMinNe st.dist v vs)) st hd hp
        exact ih _ _ hd' hp'

/-! ## Claim C1 and C10 -/

/-- C1: for every routing graph and every ordered pair of nodes `(s, d)`
with `s ≠ d`, `dijkstra g s d` returns a sequence whose first element is
`s`, whose last element is `d`, and whose length is the unweighted
shortest-path distance from `s` to `d` plus one when `d` is reachable, and
the empty sequence when `d` is unreachable.  The graph hypotheses hold of
every graph `build_routing_graph` produces: keys are unique and edge
targets are keys. -/
theorem dijkstra_shortest_path_spec (g : Graph) (s d : String)
    (hc : ClosedGraph g) (hnd : (graphKeys g).Nodup)
    (hs : s ∈ graphKeys g) (hd : d ∈ graphKeys g) (hne : s ≠ d) :
    (Reachable g s d → ∃ n, IsShortest g s d n ∧
      (dijkstra g s d).head? = some s ∧
      (dijkstra g s d).getLast? = some d ∧
      (dijkstra g s d).length = n + 1) ∧
    (¬ Reachable g s d → dijkstra g s d = []) := by
  obtain ⟨hun, -, hre⟩ := dijkstra_cases s d hc hnd hs
  refine ⟨?_, hun⟩
  intro hr
  obtain ⟨n, q, hsh, heq, hlen, hlast, -⟩ := hre hd (Ne.symm hne) hr
  refine ⟨n, hsh, ?_, ?_, ?_⟩
  · rw [heq]; rfl
  · rw [heq]
    cases q with
    | nil => cases hlast
    | cons b t => rw [List.getLast?_cons_cons]; exact hlast
  · rw [heq]; simp [hlen]

/-- A two-node graph used to witness C1. -/
def gW1 : Graph := [("A", [⟨"B", "e1"⟩]), ("B", [])]

/-- Witness for C1 at the concrete graph `gW1` with the pair `("A", "B")`. -/
theorem dijkstra_shortest_path_spec_witness :
    ∃ n, IsShortest gW1 "A" "B" n ∧
      (dijkstra gW1 "A" "B").head? = some "A" ∧
      (dijkstra gW1 "A" "B").getLast? = some "B" ∧
      (dijkstra gW1 "A" "B").length = n + 1 :=
  (dijkstra_shortest_path_spec gW1 "A" "B" (by decide) (by decide) (by decide)
    (by decide) (by decide)).1 ⟨1, ReachN.succ ReachN.zero (by decide)⟩

/-- C10: for every routing graph and node `s` present in it,
`dijkstra g s s` returns the empty sequence: no relaxation can strictly
improve the source's distance `0`, so its predecessor stays unset and the
reconstruction yields an empty path.  (`hs` marks the only inputs on which
the Python function does not raise `KeyError`.) -/
theorem dijkstra_self_empty (g : Graph) (s : String) (hs : s ∈ graphKeys g) :
    dijkstra g s s = [] := by
  simp only [dijkstra]
  have hsrc := @dloop_src g s (graphKeys g).length (graphKeys g)
    { dist := fun v => if v = s then some 0 else none, prev := fun _ => none }
    (by simp) rfl
  rw [walkPrev_no_prev hsrc.2 _ (by omega)]
  simp

/-- A one-router graph with the self-edge `build_routing_graph` adds. -/
def gW10 : Graph := [("R0", [⟨"R0", "lo"⟩])]

/-- Witness for C10 at the concrete self-edged router graph. -/
theorem dijkstra_self_empty_witness : dijkstra gW10 "R0" "R0" = [] :=
  dijkstra_self_empty gW10 "R0" (by decide)

/-! ## Frame-protocol lemmas -/

theorem decode4_be4 {n : Nat} (h : n < 2 ^ 32) :
    decode4 (n / 2 ^ 24 % 256) (n / 2 ^ 16 % 256) (n / 2 ^ 8 % 256) (n % 256) = n := by
  unfold decode4
  omega

theorem nfh_encode (f : Frame) (r : List Nat) (h : f.payload.length < 2 ^ 32) :
    next_frame_header (encodeFrame f ++ r) =
      some (f.tag, f.payload.length, f.payload ++ r) := by
  simp only [encodeFrame, be4, List.cons_append, List.nil_append, List.append_assoc,
    next_frame_header]
  rw [decode4_be4 h]

theorem dropwhileAux_boundary (p : Nat → Bool) :
    ∀ (pre : List Frame) (bad : Frame) (rest : List Frame) (fuel : Nat),
      (∀ f ∈ pre, p f.tag = true) → p bad.tag = false →
      (∀ f ∈ pre, f.payload.length < 2 ^ 32) → bad.payload.length < 2 ^ 32 →
      pre.length < fuel →
      dropwhileAux p fuel (encodeFrames (pre ++ bad :: rest)) =
        (bad.payload.length, bad.payload ++ encodeFrames rest) := by
  intro pre
  induction pre with
  | nil =>
    intro bad rest fuel _ hbad _ hbsz hfuel
    obtain ⟨fuel, rfl⟩ := Nat.exists_eq_succ_of_ne_zero (Nat.pos_iff_ne_zero.mp hfuel)
    show dropwhileAux p (fuel + 1) (encodeFrame bad ++ encodeFrames rest) = _
    simp only [dropwhileAux, nfh_encode bad _ hbsz, hbad]
    simp
  | cons f0 pre ih =>
    intro bad rest fuel hpre hbad hsz hbsz hfuel
    obtain ⟨fuel, rfl⟩ := Nat.exists_eq_succ_of_ne_zero
      (Nat.pos_iff_ne_zero.mp (Nat.lt_of_le_of_lt (Nat.zero_le _) hfuel))
    show dropwhileAux p (fuel + 1)
      (encodeFrame f0 ++ encodeFrames (pre ++ bad :: rest)) = _
    simp only [dropwhileAux, nfh_encode f0 _ (hsz f0 (by simp)), hpre f0 (by simp),
      if_pos rfl, List.drop_left]
    exact ih bad rest fuel (fun f hf => hpre f (by simp [hf])) hbad
      (fun f hf => hsz f (by simp [hf])) hbsz (Nat.lt_of_succ_lt_succ hfuel)

theorem dropwhileAux_drained (p : Nat → Bool) :
    ∀ (fs : List Frame) (fuel : Nat),
      (∀ f ∈ fs, p f.tag = true) → (∀ f ∈ fs, f.payload.length < 2 ^ 32) →
      fs.length ≤ fuel →
      dropwhileAux p fuel (encodeFrames fs) = (0, []) := by
  intro fs
  induction fs with
  | nil =>
    intro fuel _ _ _
    cases fuel <;> rfl
  | cons f0 fs ih =>
    intro fuel hall hsz hfuel
    obtain ⟨fuel, rfl⟩ := Nat.exists_eq_succ_of_ne_zero
      (Nat.pos_iff_ne_zero.mp (Nat.lt_of_le_of_lt (Nat.zero_le _) hfuel))
    show dropwhileAux p (fuel + 1) (encodeFrame f0 ++ encodeFrames fs) = _
    simp only [dropwhileAux, nfh_encode f0 _ (hsz f0 (by simp)), hall f0 (by simp),
      if_pos rfl, List.drop_left]
    exact ih fuel (fun f hf => hall f (by simp [hf]))
      (fun f hf => hsz f (by simp [hf])) (Nat.le_of_succ_le_succ hfuel)

theorem takewhileAux_boundary (p : Nat → Bool) :
    ∀ (pre : List Frame) (bad : Frame) (rest : List Frame) (fuel : Nat),
      (∀ f ∈ pre, p f.tag = true) → p bad.tag = false →
      (∀ f ∈ pre, f.payload.length < 2 ^ 32) → bad.payload.length < 2 ^ 32 →
      pre.length < fuel →
      takewhileAux p fuel (encodeFrames (pre ++ bad :: rest)) =
        (pre.map (fun f => f.payload.length), bad.payload ++ encodeFrames rest) := by
  intro pre
  induction pre with
  | nil =>
    intro bad rest fuel _ hbad _ hbsz hfuel
    obtain ⟨fuel, rfl⟩ := Nat.exists_eq_succ_of_ne_zero (Nat.pos_iff_ne_zero.mp hfuel)
    show takewhileAux p (fuel + 1) (encodeFrame bad ++ encodeFrames rest) = _
    simp only [takewhileAux, nfh_encode bad _ hbsz, hbad]
    simp
  | cons f0 pre ih =>
    intro bad rest fuel hpre hbad hsz hbsz hfuel
    obtain ⟨fuel, rfl⟩ := Nat.exists_eq_succ_of_ne_zero
      (Nat.pos_iff_ne_zero.mp (Nat.lt_of_le_of_lt (Nat.zero_le _) hfuel))
    show takewhileAux p (fuel + 1)
      (encodeFrame f0 ++ encodeFrames (pre ++ bad :: rest)) = _
    simp only [takewhileAux, nfh_encode f0 _ (hsz f0 (by simp)), hpre f0 (by simp),
      if_pos rfl, List.drop_left]
    rw [ih bad rest fuel (fun f hf => hpre f (by simp [hf])) hbad
      (fun f hf => hsz f (by simp [hf])) hbsz (Nat.lt_of_succ_lt_succ hfuel)]
    simp

theorem takewhileAux_drained (p : Nat → Bool) :
    ∀ (fs : List Frame) (fuel : Nat),
      (∀ f ∈ fs, p f.tag = true) → (∀ f ∈ fs, f.payload.length < 2 ^ 32) →
      fs.length ≤ fuel →
      takewhileAux p fuel (encodeFrames fs) = (fs.map (fun f => f.payload.length), []) := by
  intro fs
  induction fs with
  | nil =>
    intro fuel _ _ _
    cases fuel <;> rfl
  | cons f0 fs ih =>
    intro fuel hall hsz hfuel
    obtain ⟨fuel, rfl⟩ := Nat.exists_eq_succ_of_ne_zero
      (Nat.pos_iff_ne_zero.mp (Nat.lt_of_le_of_lt (Nat.zero_le _) hfuel))
    show takewhileAux p (fuel + 1) (encodeFrame f0 ++ encodeFrames fs) = _
    simp only [takewhileAux, nfh_encode f0 _ (hsz f0 (by simp)), hall f0 (by simp),
      if_pos rfl, List.drop_left]
    rw [ih fuel (fun f hf => hall f (by simp [hf]))
      (fun f hf => hsz f (by simp [hf])) (Nat.le_of_succ_le_succ hfuel)]
    simp

/-- Each encoded frame contributes at least its 8 header bytes. -/
theorem frames_le_encode_length : ∀ fs : List Frame, fs.length ≤ (encodeFrames fs).length := by
  intro fs
  induction fs with
  | nil => simp [encodeFrames]
  | cons f fs ih =>
    show fs.length + 1 ≤ (encodeFrame f ++ encodeFrames fs).length
    rw [List.length_append]
    have : 1 ≤ (encodeFrame f).length := by
      simp [encodeFrame]
    omega

/-! ## Claims C2 and C9 -/

/-- C2 counterexample: on a channel holding exactly one frame that fails
the predicate, both functions consume the frame's 8-byte header, so the
channel is not left "beginning at its header". -/
theorem frame_skip_header_consumed_cex :
    ((2 : Nat) == 1) = false ∧
    (dropwhile_frame (fun t => t == 1) (encodeFrames [⟨2, [7]⟩])).2 ≠
      encodeFrames [⟨2, [7]⟩] ∧
    (takewhile_frame (fun t => t == 1) (encodeFrames [⟨2, [7]⟩])).2 ≠
      encodeFrames [⟨2, [7]⟩] := by decide

/-- C2 (amended): `dropwhile_frame` and `takewhile_frame` consume matching
frames whole and never consume any byte of the first non-matching frame's
payload; after either returns, the channel holds exactly that payload
followed by the remaining frames — the non-matching frame's header has
already been consumed and its payload length returned, so the caller can
read the payload next.  If every frame matches, the channel drains
completely. -/
theorem frame_skip_boundary (p : Nat → Bool) (pre : List Frame) (bad : Frame)
    (rest : List Frame) (hpre : ∀ f ∈ pre, p f.tag = true)
    (hbad : p bad.tag = false) (hsz : ∀ f ∈ pre, f.payload.length < 2 ^ 32)
    (hbsz : bad.payload.length < 2 ^ 32) :
    dropwhile_frame p (encodeFrames (pre ++ bad :: rest)) =
      (bad.payload.length, bad.payload ++ encodeFrames rest) ∧
    takewhile_frame p (encodeFrames (pre ++ bad :: rest)) =
      (pre.map (fun f => f.payload.length), bad.payload ++ encodeFrames rest) ∧
    dropwhile_frame p (encodeFrames pre) = (0, []) ∧
    takewhile_frame p (encodeFrames pre) =
      (pre.map (fun f => f.payload.length), []) := by
  have hlen1 : pre.length < (encodeFrames (pre ++ bad :: rest)).length := by
    have h1 := frames_le_encode_length (pre ++ bad :: rest)
    rw [List.length_append] at h1
    simp only [List.length_cons] at h1
    omega
  have hlen2 : pre.length ≤ (encodeFrames pre).length := frames_le_encode_length pre
  refine ⟨?_, ?_, ?_, ?_⟩
  · exact dropwhileAux_boundary p pre bad rest _ hpre hbad hsz hbsz hlen1
  · exact takewhileAux_boundary p pre bad rest _ hpre hbad hsz hbsz hlen1
  · exact dropwhileAux_drained p pre _ hpre hsz hlen2
  · exact takewhileAux_drained p pre _ hpre hsz hlen2

/-- Witness for the amended C2 at a concrete three-frame channel. -/
theorem frame_skip_boundary_witness :
    dropwhile_frame (fun t => t == 1)
        (encodeFrames ([⟨1, [5]⟩] ++ (⟨2, [7]⟩ : Frame) :: [⟨1, [9]⟩])) =
      ((1 : Nat), [7] ++ encodeFrames [⟨1, [9]⟩]) ∧
    takewhile_frame (fun t => t == 1)
        (encodeFrames ([⟨1, [5]⟩] ++ (⟨2, [7]⟩ : Frame) :: [⟨1, [9]⟩])) =
      ([1], [7] ++ encodeFrames [⟨1, [9]⟩]) ∧
    dropwhile_frame (fun t => t == 1) (encodeFrames [⟨1, [5]⟩]) = (0, []) ∧
    takewhile_frame (fun t => t == 1) (encodeFrames [⟨1, [5]⟩]) = ([1], []) :=
  frame_skip_boundary (fun t => t == 1) [⟨1, [5]⟩] ⟨2, [7]⟩ [⟨1, [9]⟩]
    (by decide) (by decide) (by decide) (by decide)

/-- C9: a channel that is not drained — its first frame fails the predicate
and has a zero-length payload — still makes `dropwhile_frame` return `0`,
so a `0` return does not imply the channel drained before a non-matching
frame was found. -/
theorem dropwhile_zero_ambiguous :
    encodeFrames [⟨2, []⟩] ≠ [] ∧ ((2 : Nat) == 1) = false ∧
    (dropwhile_frame (fun t => t == 1) (encodeFrames [⟨2, []⟩])).1 = 0 := by decide

/-! ## Claim C7 -/

/-- C7: `send_command` fails with a timeout error exactly when the channel
never becomes writable within the write timeout, in which case nothing is
written; on success it writes the shell-quoted joining of `argv`
(`subprocess.list2cmdline`) followed by a single newline, as one unit. -/
theorem send_command_spec (w : Bool) (cmd : List String) :
    (send_command w cmd = .error .timeout ↔ w = false) ∧
    (w = true → send_command w cmd = .ok (list2cmdline cmd ++ "\n")) := by
  constructor
  · constructor
    · intro h
      cases w
      · rfl
      · exact absurd h (by simp [send_command])
    · intro h
      subst h
      rfl
  · intro h
    subst h
    rfl

/-- Witness for C7: a successful write of a concrete command line. -/
theorem send_command_spec_witness :
    send_command true ["do", "wr"] = .ok (list2cmdline ["do", "wr"] ++ "\n") :=
  (send_command_spec true ["do", "wr"]).2 rfl

/-! ## Association-list lemmas for the graph construction -/

theorem alistGet_cons_self {κ α : Type} [DecidableEq κ] {k : κ} {v : α}
    {rest : List (κ × α)} : alistGet ((k, v) :: rest) k = some v := by
  simp [alistGet]

theorem alistGet_cons_ne {κ α : Type} [DecidableEq κ] {k n : κ} (h : ¬ k = n)
    {v : α} {rest : List (κ × α)} :
    alistGet ((k, v) :: rest) n = alistGet rest n := by
  simp [alistGet, h]

theorem mem_keys_iff_get {κ α : Type} [DecidableEq κ] (m : List (κ × α)) (k : κ) :
    k ∈ m.map Prod.fst ↔ ∃ v, alistGet m k = some v := by
  induction m with
  | nil => simp [alistGet]
  | cons kv rest ih =>
    obtain ⟨k', v'⟩ := kv
    by_cases hk : k' = k
    · subst hk
      simp [alistGet]
    · simp only [List.map_cons, List.mem_cons, alistGet, if_neg hk]
      rw [ih]
      constructor
      · rintro (h | h)
        · exact absurd h.symm hk
        · exact h
      · intro h
        exact Or.inr h

theorem alistPush_get_self {κ : Type} {α : Type} [DecidableEq κ]
    (m : List (κ × List α)) (k : κ) (x : α) :
    alistGet (alistPush m k x) k = some ((alistGet m k).getD [] ++ [x]) := by
  induction m with
  | nil => simp [alistPush, alistGet]
  | cons kv rest ih =>
    obtain ⟨k', xs⟩ := kv
    by_cases hk : k' = k
    · subst hk
      simp [alistPush, alistGet]
    · simp [alistPush, alistGet, hk, ih]

theorem alistPush_get_ne {κ : Type} {α : Type} [DecidableEq κ]
    (m : List (κ × List α)) (k k' : κ) (x : α) (h : k' ≠ k) :
    alistGet (alistPush m k x) k' = alistGet m k' := by
  have hne : ¬ k = k' := fun hh => h hh.symm
  induction m with
  | nil => simp [alistPush, alistGet, hne]
  | cons kv rest ih =>
    obtain ⟨k'', xs⟩ := kv
    by_cases hk : k'' = k
    · subst hk
      simp [alistPush, alistGet, hne]
    · by_cases hk' : k'' = k'
      · subst hk'
        simp [alistPush, alistGet, hk]
      · simp [alistPush, alistGet, hk, hk', ih]

theorem alistPush_mem_elim {κ : Type} {α : Type} [DecidableEq κ]
    {m : List (κ × List α)} {k n : κ} {x e : α}
    (h : e ∈ (alistGet (alistPush m k x) n).getD []) :
    e ∈ (alistGet m n).getD [] ∨ (n = k ∧ e = x) := by
  by_cases hk : n = k
  · subst hk
    rw [alistPush_get_self] at h
    simp only [Option.getD_some] at h
    rcases List.mem_append.mp h with h | h
    · exact Or.inl h
    · simp only [List.mem_singleton] at h
      exact Or.inr ⟨rfl, h⟩
  · rw [alistPush_get_ne _ _ _ _ hk] at h
    exact Or.inl h

theorem alistPush_mem_keys {κ : Type} {α : Type} [DecidableEq κ]
    (m : List (κ × List α)) (k n : κ) (x : α) :
    n ∈ (alistPush m k x).map Prod.fst ↔ n ∈ m.map Prod.fst ∨ n = k := by
  induction m with
  | nil => simp [alistPush]
  | cons kv rest ih =>
    obtain ⟨k', xs⟩ := kv
    by_cases hk : k' = k
    · subst hk
      simp [alistPush]
      tauto
    · simp only [alistPush, if_neg hk, List.map_cons, List.mem_cons, ih]
      tauto

/-! ## `build_routing_graph` lemmas -/

/-- The fold building the undirected edge lists. -/
def graphBase (links : List Link) : Graph :=
  links.foldl
    (fun g l => alistPush (alistPush g l.1.1 ⟨l.2.1, l.1.2⟩) l.2.1 ⟨l.1.1, l.2.2⟩) []

theorem graphBase_edge_elim :
    ∀ (links : List Link) (acc : Graph) (n : String) (e : RouteLink),
      e ∈ (alistGet (links.foldl
          (fun g l => alistPush (alistPush g l.1.1 ⟨l.2.1, l.1.2⟩) l.2.1 ⟨l.1.1, l.2.2⟩)
          acc) n).getD [] →
        e ∈ (alistGet acc n).getD [] ∨
        ∃ l ∈ links, (n = l.1.1 ∧ e = ⟨l.2.1, l.1.2⟩) ∨ (n = l.2.1 ∧ e = ⟨l.1.1, l.2.2⟩) := by
  intro links
  induction links with
  | nil =>
    intro acc n e h
    exact Or.inl h
  | cons l ls ih =>
    intro acc n e h
    rcases ih _ n e h with h' | ⟨l', hl', hcase⟩
    · rcases alistPush_mem_elim h' with h'' | ⟨hn, he⟩
      · rcases alistPush_mem_elim h'' with h3 | ⟨hn, he⟩
        · exact Or.inl h3
        · exact Or.inr ⟨l, by simp, Or.inl ⟨hn, he⟩⟩
      · exact Or.inr ⟨l, by simp, Or.inr ⟨hn, he⟩⟩
    · exact Or.inr ⟨l', by simp [hl'], hcase⟩

theorem graphBase_keys_elim :
    ∀ (links : List Link) (acc : Graph) (n : String),
      n ∈ graphKeys (links.foldl
          (fun g l => alistPush (alistPush g l.1.1 ⟨l.2.1, l.1.2⟩) l.2.1 ⟨l.1.1, l.2.2⟩)
          acc) →
        n ∈ graphKeys acc ∨ ∃ l ∈ links, n = l.1.1 ∨ n = l.2.1 := by
  intro links
  induction links with
  | nil =>
    intro acc n h
    exact Or.inl h
  | cons l ls ih =>
    intro acc n h
    rcases ih _ n h with h' | ⟨l', hl', hcase⟩
    · rw [graphKeys, alistPush_mem_keys] at h'
      rcases h' with h' | h'
      · rw [alistPush_mem_keys] at h'
        rcases h' with h' | h'
        · exact Or.inl h'
        · exact Or.inr ⟨l, by simp, Or.inl h'⟩
      · exact Or.inr ⟨l, by simp, Or.inr h'⟩
    · exact Or.inr ⟨l', by simp [hl'], hcase⟩

/-- Appending self-edges preserves the key list. -/
theorem build_keys_eq (links : List Link) :
    graphKeys (build_routing_graph links) = graphKeys (graphBase links) := by
  show graphKeys (List.map _ (graphBase links)) = _
  unfold graphKeys
  rw [List.map_map]
  apply List.map_congr_left
  intro kv _
  by_cases h : isPCName kv.1
  · simp [h]
  · simp [h]

/-- Lookup in the self-edge-appending map. -/
theorem build_get (links : List Link) (n : String) :
    alistGet (build_routing_graph links) n =
      (alistGet (graphBase links) n).map
        (fun es => if isPCName n then es else es ++ [⟨n, "lo"⟩]) := by
  show alistGet (List.map _ (graphBase links)) n = _
  induction graphBase links with
  | nil => simp [alistGet]
  | cons kv rest ih =>
    obtain ⟨k, es⟩ := kv
    rw [List.map_cons]
    dsimp only
    by_cases hpc : isPCName k = true
    · rw [if_pos hpc]
      by_cases hk : k = n
      · subst hk
        rw [alistGet_cons_self, alistGet_cons_self]
        simp [hpc]
      · rw [alistGet_cons_ne hk, alistGet_cons_ne hk, ih]
    · rw [if_neg hpc]
      by_cases hk : k = n
      · subst hk
        rw [alistGet_cons_self, alistGet_cons_self]
        simp [hpc]
      · rw [alistGet_cons_ne hk, alistGet_cons_ne hk, ih]

/-! ## Claim C5 -/

/-- C5: a node appearing in a link of the topology has a self-edge tagged
`"lo"` in `build_routing_graph`'s output iff its name marks it as a router
and not a host (hypotheses: node names are router- or host-shaped and link
endpoints name distinct nodes, the spec's Link invariant). -/
theorem self_edge_iff_router (links : List Link) (n : String)
    (hnames : ∀ l ∈ links,
      (isRName l.1.1 = true ∨ isPCName l.1.1 = true) ∧
      (isRName l.2.1 = true ∨ isPCName l.2.1 = true))
    (hdistinct : ∀ l ∈ links, l.1.1 ≠ l.2.1)
    (hn : n ∈ graphKeys (build_routing_graph links)) :
    (∃ e ∈ edgesOf (build_routing_graph links) n, e.node = n ∧ e.adapter = "lo") ↔
      (isRName n = true ∧ isPCName n = false) := by
  rw [build_keys_eq] at hn
  have hnl : ∃ l ∈ links, n = l.1.1 ∨ n = l.2.1 := by
    rcases graphBase_keys_elim links [] n hn with h | h
    · simp [graphKeys] at h
    · exact h
  have hRP : isRName n = true ∨ isPCName n = true := by
    obtain ⟨l, hl, hcase⟩ := hnl
    rcases hcase with rfl | rfl
    · exact (hnames l hl).1
    · exact (hnames l hl).2
  obtain ⟨es, hes⟩ := (mem_keys_iff_get _ n).mp hn
  have hnoself : ∀ e ∈ es, e.node ≠ n := by
    intro e he hen
    have : e ∈ (alistGet (graphBase links) n).getD [] := by
      rw [hes]; exact he
    rcases graphBase_edge_elim links [] n e this with h | ⟨l, hl, hcase⟩
    · simp [alistGet] at h
    · rcases hcase with ⟨hn1, he1⟩ | ⟨hn2, he2⟩
      · rw [he1] at hen
        exact hdistinct l hl (by rw [← hn1, ← hen])
      · rw [he2] at hen
        exact hdistinct l hl (by rw [← hn2, ← hen])
  have hedges : edgesOf (build_routing_graph links) n =
      if isPCName n then es else es ++ [⟨n, "lo"⟩] := by
    unfold edgesOf
    rw [build_get, hes]
    rfl
  by_cases hpc : isPCName n = true
  · rw [hedges, if_pos hpc]
    constructor
    · rintro ⟨e, he, hen, -⟩
      exact absurd hen (hnoself e he)
    · rintro ⟨-, hf⟩
      rw [hpc] at hf
      cases hf
  · have hpcf : isPCName n = false := by
      cases h : isPCName n
      · rfl
      · exact absurd h hpc
    have hr : isRName n = true := hRP.resolve_right hpc
    rw [hedges, if_neg hpc]
    constructor
    · intro
      exact ⟨hr, hpcf⟩
    · intro
      exact ⟨⟨n, "lo"⟩, by simp, rfl, rfl⟩

/-- A one-link router-host topology for the C5 witness. -/
def linksW5 : List Link := [(("R0", "eth1"), ("PC0", "eth1"))]

/-- Witness for C5: the router `R0` of a concrete topology has a self-edge. -/
theorem self_edge_iff_router_witness :
    ∃ e ∈ edgesOf (build_routing_graph linksW5) "R0", e.node = "R0" ∧ e.adapter = "lo" :=
  (self_edge_iff_router linksW5 "R0" (by decide) (by decide) (by decide)).mpr
    (by decide)

/-! ## Claim C4 -/

/-- C4: route synthesis for an ordered pair is a deterministic function of
the routing graph, the `NETWORK_MAP` and the shared-subnet choice (which,
in CPython, is the deterministic hash-order pick out of the set
intersection): re-running it on unchanged inputs yields the identical
route set.  In this pure embedding the statement is input-congruence. -/
theorem synth_deterministic (choose : List Subnet → Subnet) (g g' : Graph)
    (nm nm' : NetworkMap) (s d : String) (hg : g = g') (hnm : nm = nm') :
    synthPair choose g nm s d = synthPair choose g' nm' s d := by
  subst hg
  subst hnm
  rfl

/-- The first-element choice function used by concrete witnesses. -/
def chooseHead : List Subnet → Subnet := fun l => l.headD ⟨⟨0, 0, 0, 0⟩, 0⟩

theorem chooseHead_mem : ∀ l : List Subnet, l ≠ [] → chooseHead l ∈ l := by
  intro l hl
  cases l with
  | nil => exact absurd rfl hl
  | cons a t => simp [chooseHead]

/-- The 2-router ring topology of end-to-end scenario B (the shape the
repository's `generate_topology.py --subnets 2` emits). -/
def ringNodesW : List String := ["R0", "R1"]

def ringLinksW : List Link :=
  [(("R0", "eth1"), ("R1", "eth1")), (("R1", "eth2"), ("R0", "eth2"))]

def gW8 : Graph := build_routing_graph ringLinksW

def nmW8 : NetworkMap := buildNetworkMap ringNodesW ringLinksW

def m0W8 : NodeMap := (alistGet nmW8 "R0").getD []

def m1W8 : NodeMap := (alistGet nmW8 "R1").getD []

/-- Witness for C4: synthesis re-run on the unchanged 2-router ring inputs. -/
theorem synth_deterministic_witness :
    synthPair chooseHead gW8 nmW8 "R0" "R1" =
      synthPair chooseHead gW8 nmW8 "R0" "R1" :=
  synth_deterministic chooseHead gW8 gW8 nmW8 nmW8 "R0" "R1" rfl rfl

/-! ## Claim C8 -/

/-- C8: on the two-router ring with no hosts, synthesizing the ordered pair
`(R0, R1)` emits exactly one route, installed on `R0`, whose destination is
`R1`'s `/32` loopback subnet and whose gateway is `R1`'s IP address on a
subnet directly attached to both routers — for any choice function that
picks an element of the (here two-element) subnet intersection, as
Python's `next(iter(set & set))` does. -/
theorem two_router_ring_single_route (choose : List Subnet → Subnet)
    (hch : ∀ l : List Subnet, l ≠ [] → choose l ∈ l) :
    ∃ r : Route,
      synthPair choose gW8 nmW8 "R0" "R1" = .ok [("R0", r)] ∧
      r.subnet = loNet (parseRId "R1") ∧
      ∃ sh : Subnet, sh ∈ nodeKeys m0W8 ∧ sh ∈ nodeKeys m1W8 ∧
        ∃ ad : String, alistGet m1W8 sh = some (r.gateway, ad) := by
  have hw := hch [transitNet 1, transitNet 2] (by decide)
  have hgoal : synthPair choose gW8 nmW8 "R0" "R1" =
      (match alistGet m1W8 (choose [transitNet 1, transitNet 2]),
             alistGet m0W8 (choose [transitNet 1, transitNet 2]) with
       | some hisV, some ourV =>
           Except.ok [("R0", ⟨loNet 1, hisV.1, ourV.2⟩)]
       | _, _ => Except.error SynthError.missingEntry) := rfl
  rcases List.mem_cons.mp hw with hw1 | hw1
  · rw [hw1] at hgoal
    exact ⟨⟨loNet 1, ⟨192, 168, 1, 2⟩, "eth1"⟩, hgoal, rfl,
      transitNet 1, by decide, by decide, "eth1", by decide⟩
  · simp only [List.mem_singleton] at hw1
    rw [hw1] at hgoal
    exact ⟨⟨loNet 1, ⟨192, 168, 2, 2⟩, "eth2"⟩, hgoal, rfl,
      transitNet 2, by decide, by decide, "eth2", by decide⟩

/-- Witness for C8 with the concrete head-of-intersection choice. -/
theorem two_router_ring_single_route_witness :
    ∃ r : Route,
      synthPair chooseHead gW8 nmW8 "R0" "R1" = .ok [("R0", r)] ∧
      r.subnet = loNet (parseRId "R1") ∧
      ∃ sh : Subnet, sh ∈ nodeKeys m0W8 ∧ sh ∈ nodeKeys m1W8 ∧
        ∃ ad : String, alistGet m1W8 sh = some (r.gateway, ad) :=
  two_router_ring_single_route chooseHead chooseHead_mem

/-! ## `alistSet` / `nmSet` lemmas -/

theorem alistSet_get_self {κ α : Type} [DecidableEq κ] (m : List (κ × α)) (k : κ)
    (v : α) : alistGet (alistSet m k v) k = some v := by
  induction m with
  | nil => simp [alistSet, alistGet]
  | cons kv rest ih =>
    obtain ⟨k', v'⟩ := kv
    by_cases hk : k' = k
    · subst hk
      simp [alistSet, alistGet]
    · simp [alistSet, alistGet, hk, ih]

theorem alistSet_get_ne {κ α : Type} [DecidableEq κ] (m : List (κ × α)) (k k' : κ)
    (v : α) (h : k' ≠ k) : alistGet (alistSet m k v) k' = alistGet m k' := by
  have hne : ¬ k = k' := fun hh => h hh.symm
  induction m with
  | nil => simp [alistSet, alistGet, hne]
  | cons kv rest ih =>
    obtain ⟨k'', v''⟩ := kv
    by_cases hk : k'' = k
    · subst hk
      simp [alistSet, alistGet, hne]
    · by_cases hk' : k'' = k'
      · subst hk'
        simp [alistSet, alistGet, hk]
      · simp [alistSet, alistGet, hk, hk', ih]

/-- `d[k] = v` leaves the key list unchanged when `k` is present, else
appends `k`. -/
theorem alistSet_keys {κ α : Type} [DecidableEq κ] (m : List (κ × α)) (k : κ)
    (v : α) :
    (alistSet m k v).map Prod.fst =
      if k ∈ m.map Prod.fst then m.map Prod.fst else m.map Prod.fst ++ [k] := by
  induction m with
  | nil => simp [alistSet]
  | cons kv rest ih =>
    obtain ⟨k', v'⟩ := kv
    by_cases hk : k' = k
    · subst hk
      simp [alistSet]
    · have : ¬ k = k' := fun hh => hk hh.symm
      simp only [alistSet, if_neg hk, List.map_cons, ih]
      by_cases hmem : k ∈ rest.map Prod.fst
      · simp [hmem, this]
      · simp [hmem, this]

theorem alistSet_keys_nodup {κ α : Type} [DecidableEq κ] {m : List (κ × α)}
    {k : κ} {v : α} (h : (m.map Prod.fst).Nodup) :
    ((alistSet m k v).map Prod.fst).Nodup := by
  rw [alistSet_keys]
  by_cases hmem : k ∈ m.map Prod.fst
  · simpa [hmem] using h
  · rw [if_neg hmem, List.nodup_append]
    exact ⟨h, List.nodup_singleton _, by simpa [List.disjoint_singleton] using hmem⟩

/-- Updating never changes the first key of a nonempty entry. -/
theorem alistSet_head_key {κ α : Type} [DecidableEq κ] {k0 : κ} {v0 : α}
    {t : List (κ × α)} (k : κ) (v : α) :
    ∃ v0' t', alistSet ((k0, v0) :: t) k v = (k0, v0') :: t' := by
  by_cases hk : k0 = k
  · subst hk
    exact ⟨v, t, by simp [alistSet]⟩
  · exact ⟨v0, alistSet t k v, by simp [alistSet, hk]⟩

theorem alistSet_ne_nil {κ α : Type} [DecidableEq κ] (m : List (κ × α)) (k : κ)
    (v : α) : alistSet m k v ≠ [] := by
  cases m with
  | nil => simp [alistSet]
  | cons kv rest =>
    obtain ⟨k', v'⟩ := kv
    by_cases hk : k' = k
    · simp [alistSet, hk]
    · simp [alistSet, hk]

theorem nmSet_get_self (nm : NetworkMap) (node : String) (k : Subnet)
    (v : IPv4 × String) :
    alistGet (nmSet nm node k v) node =
      some (alistSet ((alistGet nm node).getD []) k v) := by
  induction nm with
  | nil => simp [nmSet, alistGet, alistSet]
  | cons kv rest ih =>
    obtain ⟨n', m'⟩ := kv
    by_cases hn : n' = node
    · subst hn
      simp [nmSet, alistGet]
    · simp [nmSet, alistGet, hn, ih]

theorem nmSet_get_ne (nm : NetworkMap) (node node' : String) (k : Subnet)
    (v : IPv4 × String) (h : node' ≠ node) :
    alistGet (nmSet nm node k v) node' = alistGet nm node' := by
  have hne : ¬ node = node' := fun hh => h hh.symm
  induction nm with
  | nil => simp [nmSet, alistGet, hne]
  | cons kv rest ih =>
    obtain ⟨n', m'⟩ := kv
    by_cases hn : n' = node
    · subst hn
      simp [nmSet, alistGet, hne]
    · by_cases hn' : n' = node'
      · subst hn'
        simp [nmSet, alistGet, hn]
      · simp [nmSet, alistGet, hn, hn', ih]

/-! ## Addressing-phase invariants -/

/-- The node owns a nonempty `NETWORK_MAP` entry. -/
def EntryNonempty (nm : NetworkMap) (x : String) : Prop :=
  ∃ m, alistGet nm x = some m ∧ m ≠ []

/-- The node's entry exists and its first (earliest-inserted) key is `k`. -/
def FirstKey (nm : NetworkMap) (x : String) (k : Subnet) : Prop :=
  ∃ v t, alistGet nm x = some ((k, v) :: t)

/-- Every entry has pairwise-distinct subnet keys. -/
def KeysNodup (nm : NetworkMap) : Prop :=
  ∀ x m, alistGet nm x = some m → (m.map Prod.fst).Nodup

theorem FirstKey.entryNonempty {nm : NetworkMap} {x : String} {k : Subnet}
    (h : FirstKey nm x k) : EntryNonempty nm x := by
  obtain ⟨v, t, hget⟩ := h
  exact ⟨(k, v) :: t, hget, by simp⟩

theorem nmSet_entryNonempty {nm : NetworkMap} {x : String} (node : String)
    (k : Subnet) (v : IPv4 × String) (h : EntryNonempty nm x) :
    EntryNonempty (nmSet nm node k v) x := by
  by_cases hn : x = node
  · subst hn
    exact ⟨_, nmSet_get_self nm x k v, alistSet_ne_nil _ _ _⟩
  · obtain ⟨m, hm, hne⟩ := h
    exact ⟨m, by rw [nmSet_get_ne _ _ _ _ _ hn]; exact hm, hne⟩

theorem nmSet_entryNonempty_self (nm : NetworkMap) (node : String) (k : Subnet)
    (v : IPv4 × String) : EntryNonempty (nmSet nm node k v) node :=
  ⟨_, nmSet_get_self nm node k v, alistSet_ne_nil _ _ _⟩

theorem nmSet_firstKey {nm : NetworkMap} {x : String} {k0 : Subnet}
    (node : String) (k : Subnet) (v : IPv4 × String) (h : FirstKey nm x k0) :
    FirstKey (nmSet nm node k v) x k0 := by
  by_cases hn : x = node
  · subst hn
    obtain ⟨v0, t, hget⟩ := h
    obtain ⟨v0', t', heq⟩ := @alistSet_head_key _ _ _ k0 v0 t k v
    refine ⟨v0', t', ?_⟩
    rw [nmSet_get_self, hget]
    simp [heq]
  · obtain ⟨v0, t, hget⟩ := h
    exact ⟨v0, t, by rw [nmSet_get_ne _ _ _ _ _ hn]; exact hget⟩

theorem nmSet_keysNodup {nm : NetworkMap} (node : String) (k : Subnet)
    (v : IPv4 × String) (h : KeysNodup nm) : KeysNodup (nmSet nm node k v) := by
  intro x m hm
  by_cases hn : x = node
  · subst hn
    rw [nmSet_get_self] at hm
    cases hm
    apply alistSet_keys_nodup
    cases hget : alistGet nm x with
    | none => simp
    | some m0 => simpa using h x m0 hget
  · rw [nmSet_get_ne _ _ _ _ _ hn] at hm
    exact h x m hm

/-! ## Generic fold preservation -/

theorem foldl_preserve {σ β : Type} (P : σ → Prop) (f : σ → β → σ)
    (hf : ∀ s b, P s → P (f s b)) :
    ∀ (l : List β) (s : σ), P s → P (l.foldl f s) := by
  intro l
  induction l with
  | nil => intro s hs; exact hs
  | cons b bs ih =>
    intro s hs
    exact ih _ (hf s b hs)

theorem foldl_establish {σ β : Type} (P : σ → Prop) (f : σ → β → σ)
    (hpres : ∀ s b, P s → P (f s b)) :
    ∀ (l : List β) (b : β), b ∈ l → (∀ s, P (f s b)) →
      ∀ s, P (l.foldl f s) := by
  intro l
  induction l with
  | nil => intro b hb; simp at hb
  | cons x xs ih =>
    intro b hb hset s
    rcases List.mem_cons.mp hb with rfl | hb'
    · exact foldl_preserve P f hpres xs _ (hset s)
    · exact ih b hb' hset (f s x)

/-! ## Topology well-formedness

The spec's data-model invariants plus the numeric bounds under which the
Python addressing code raises no exception: every node name is
router-shaped or host-shaped (anything else crashes the role regexes),
links join two distinct nodes that are registered, no host-host links,
router ids small enough for the dotted octets, and few enough links for
`assert subnet_counter < 256`. -/
structure WFTopo (nodes : List String) (links : List Link) : Prop where
  names : ∀ x ∈ nodes, isRName x = true ∨ isPCName x = true
  nodup : nodes.Nodup
  ends_mem : ∀ l ∈ links, l.1.1 ∈ nodes ∧ l.2.1 ∈ nodes
  ends_ne : ∀ l ∈ links, l.1.1 ≠ l.2.1
  no_pc_pc : ∀ l ∈ links, isPCName l.1.1 = true → isPCName l.2.1 = true → False
  id_bound : ∀ x ∈ nodes, isRName x = true → parseRId x + 2 ≤ 255
  link_bound : links.length ≤ 255

/-! ## Phase preservation and establishment -/

theorem setup_router_loopbacks_preserve {P : NetworkMap → Prop}
    (hP : ∀ nm node k v, P nm → P (nmSet nm node k v)) (nodes : List String)
    (nm : NetworkMap) (h : P nm) : P (setup_router_loopbacks nodes nm) := by
  unfold setup_router_loopbacks
  refine foldl_preserve P _ ?_ nodes nm h
  intro s b hs
  dsimp only
  split
  · exact hs
  · exact hP _ _ _ _ hs

theorem setup_router_subnets_preserve {P : NetworkMap → Prop}
    (hP : ∀ nm node k v, P nm → P (nmSet nm node k v)) (links : List Link)
    (nm : NetworkMap) (h : P nm) : P (setup_router_subnets links nm) := by
  unfold setup_router_subnets
  refine foldl_preserve (fun acc : NetworkMap × Nat => P acc.1) _ ?_ links (nm, 1) h
  intro s b hs
  dsimp only
  split
  · exact hs
  · exact hP _ _ _ _ (hP _ _ _ _ hs)

theorem setup_pc_links_preserve {P : NetworkMap → Prop}
    (hP : ∀ nm node k v, P nm → P (nmSet nm node k v)) (links : List Link)
    (nm : NetworkMap) (h : P nm) : P (setup_pc_links links nm) := by
  unfold setup_pc_links
  refine foldl_preserve P _ ?_ links nm h
  intro s b hs
  dsimp only
  cases classifyPcLink b with
  | none => exact hs
  | some pr => exact hP _ _ _ _ (hP _ _ _ _ hs)

/-- Subnet keys are pairwise distinct within every node's entry, for any
input topology: every insertion is an update-or-append. -/
theorem buildNM_keysNodup (nodes : List String) (links : List Link) :
    KeysNodup (buildNetworkMap nodes links) := by
  have h0 : KeysNodup [] := by
    intro x m hm
    simp [alistGet] at hm
  have hP : ∀ nm node k v, KeysNodup nm → KeysNodup (nmSet nm node k v) :=
    fun nm node k v h => nmSet_keysNodup node k v h
  exact setup_pc_links_preserve hP links _
    (setup_router_subnets_preserve hP links _
      (setup_router_loopbacks_preserve hP nodes _ h0))

/-- Before a node's own turn in the loopback pass, it has no entry. -/
theorem loopbacks_pre_none (r : String) :
    ∀ (pre : List String), r ∉ pre → ∀ acc, alistGet acc r = none →
      alistGet (setup_router_loopbacks pre acc) r = none := by
  intro pre
  induction pre with
  | nil => intro _ acc h; exact h
  | cons x xs ih =>
    intro hr acc h
    have hxr : x ≠ r := fun hh => hr (by simp [hh])
    have hrxs : r ∉ xs := fun hh => hr (by simp [hh])
    show alistGet (setup_router_loopbacks xs _) r = none
    apply ih hrxs
    dsimp only
    split
    · exact h
    · rw [nmSet_get_ne _ _ _ _ _ (fun hh => hxr hh.symm)]
      exact h

/-- The loopback pass makes a router's `/32` loopback its first entry. -/
theorem loopbacks_establish (nodes : List String) (hnd : nodes.Nodup)
    (r : String) (hr : r ∈ nodes) (hrn : isRName r = true) :
    FirstKey (setup_router_loopbacks nodes []) r (loNet (parseRId r)) := by
  obtain ⟨pre, post, rfl⟩ := List.append_of_mem hr
  have hrpre : r ∉ pre := by
    rw [List.nodup_append] at hnd
    intro hmem
    exact hnd.2.2 hmem (by simp)
  have hnone : alistGet (setup_router_loopbacks pre []) r = none :=
    loopbacks_pre_none r pre hrpre [] (by simp [alistGet])
  show FirstKey ((pre ++ r :: post).foldl _ []) r _
  rw [List.foldl_append, List.foldl_cons]
  have hstep : FirstKey
      (nmSet (setup_router_loopbacks pre []) r (loNet (parseRId r))
        (⟨10, 10, 10, parseRId r + 1⟩, "lo")) r (loNet (parseRId r)) := by
    refine ⟨(⟨10, 10, 10, parseRId r + 1⟩, "lo"), [], ?_⟩
    rw [nmSet_get_self, hnone]
    rfl
  have hpcf : isPCName r = false := isRName_not_isPCName hrn
  refine foldl_preserve (fun nm => FirstKey nm r (loNet (parseRId r))) _ ?_ post _ ?_
  · intro s b hs
    dsimp only
    split
    · exact hs
    · exact nmSet_firstKey _ _ _ hs
  · dsimp only
    simp only [hpcf, Bool.false_eq_true, if_false]
    exact hstep

/-- After the whole addressing phase, a router's first subnet key is its
loopback. -/
theorem buildNM_router_first (nodes : List String) (links : List Link)
    (hnd : nodes.Nodup) (r : String) (hr : r ∈ nodes) (hrn : isRName r = true) :
    FirstKey (buildNetworkMap nodes links) r (loNet (parseRId r)) := by
  have hP : ∀ nm node k v, FirstKey nm r (loNet (parseRId r)) →
      FirstKey (nmSet nm node k v) r (loNet (parseRId r)) :=
    fun nm node k v h => nmSet_firstKey _ _ _ h
  exact setup_pc_links_preserve hP links _
    (setup_router_subnets_preserve hP links _
      (loopbacks_establish nodes hnd r hr hrn))

/-! ## PC classification and entries -/

theorem classify_pc_r {l : Link} (h1 : isPCName l.1.1 = true)
    (h2 : isRName l.2.1 = true) : classifyPcLink l = some (l.1, l.2) := by
  simp [classifyPcLink, h1, h2, isRName_not_isPCName h2]

theorem classify_r_pc {l : Link} (h1 : isRName l.1.1 = true)
    (h2 : isPCName l.2.1 = true) : classifyPcLink l = some (l.2, l.1) := by
  simp [classifyPcLink, h1, h2, isRName_not_isPCName h1]

theorem setup_pc_links_establish (links : List Link) (l : Link) (hl : l ∈ links)
    (pcE rE : Endpoint) (hcl : classifyPcLink l = some (pcE, rE)) (nm : NetworkMap) :
    EntryNonempty (setup_pc_links links nm) pcE.1 := by
  unfold setup_pc_links
  refine foldl_establish (fun nm => EntryNonempty nm pcE.1) _ ?_ links l hl ?_ nm
  · intro s b hs
    dsimp only
    cases classifyPcLink b with
    | none => exact hs
    | some pr => exact nmSet_entryNonempty _ _ _ (nmSet_entryNonempty _ _ _ hs)
  · intro s
    dsimp only
    rw [hcl]
    exact nmSet_entryNonempty _ _ _ (nmSet_entryNonempty_self _ _ _ _)

/-- Every node occurring in a link owns a nonempty `NETWORK_MAP` entry
after the addressing phase. -/
theorem buildNM_entry (nodes : List String) (links : List Link)
    (wf : WFTopo nodes links) (x : String)
    (hx : ∃ l ∈ links, x = l.1.1 ∨ x = l.2.1) :
    EntryNonempty (buildNetworkMap nodes links) x := by
  obtain ⟨l, hl, hcase⟩ := hx
  have hxnodes : x ∈ nodes := by
    rcases hcase with rfl | rfl
    · exact (wf.ends_mem l hl).1
    · exact (wf.ends_mem l hl).2
  rcases wf.names x hxnodes with hR | hPC
  · exact (buildNM_router_first nodes links wf.nodup x hxnodes hR).entryNonempty
  · rcases hcase with rfl | rfl
    · have h2 : isRName l.2.1 = true := by
        rcases wf.names l.2.1 (wf.ends_mem l hl).2 with h | h
        · exact h
        · exact (wf.no_pc_pc l hl hPC h).elim
      exact setup_pc_links_establish links l hl l.1 l.2 (classify_pc_r hPC h2) _
    · have h2 : isRName l.1.1 = true := by
        rcases wf.names l.1.1 (wf.ends_mem l hl).1 with h | h
        · exact h
        · exact (wf.no_pc_pc l hl h hPC).elim
      exact setup_pc_links_establish links l hl l.2 l.1 (classify_r_pc h2 hPC) _

/-! ## `build_routing_graph` output well-formedness -/

theorem alistPush_keys_shape {κ α : Type} [DecidableEq κ]
    (m : List (κ × List α)) (k : κ) (x : α) :
    (alistPush m k x).map Prod.fst = m.map Prod.fst ∨
    ((alistPush m k x).map Prod.fst = m.map Prod.fst ++ [k] ∧ k ∉ m.map Prod.fst) := by
  induction m with
  | nil => exact Or.inr ⟨by simp [alistPush], by simp⟩
  | cons kv rest ih =>
    obtain ⟨k', xs⟩ := kv
    by_cases hk : k' = k
    · subst hk
      exact Or.inl (by simp [alistPush])
    · rcases ih with h | ⟨h, hnot⟩
      · exact Or.inl (by simp [alistPush, hk, h])
      · refine Or.inr ⟨by simp [alistPush, hk, h], ?_⟩
        simp only [List.map_cons, List.mem_cons]
        rintro (h' | h')
        · exact hk h'.symm
        · exact hnot h'

theorem alistPush_keys_nodup {κ α : Type} [DecidableEq κ]
    {m : List (κ × List α)} {k : κ} {x : α} (h : (m.map Prod.fst).Nodup) :
    ((alistPush m k x).map Prod.fst).Nodup := by
  rcases alistPush_keys_shape m k x with heq | ⟨heq, hnot⟩
  · rwa [heq]
  · rw [heq, List.nodup_append]
    exact ⟨h, List.nodup_singleton _, by simpa [List.disjoint_singleton] using hnot⟩

theorem graphBase_keys_nodup (links : List Link) :
    (graphKeys (graphBase links)).Nodup := by
  unfold graphBase
  refine foldl_preserve (fun g : Graph => (graphKeys g).Nodup) _ ?_ links [] (by simp [graphKeys])
  intro s b hs
  exact alistPush_keys_nodup (alistPush_keys_nodup hs)

theorem get_of_mem_nodup {κ α : Type} [DecidableEq κ] {m : List (κ × α)}
    {k : κ} {v : α} (hnd : (m.map Prod.fst).Nodup) (hmem : (k, v) ∈ m) :
    alistGet m k = some v := by
  induction m with
  | nil => simp at hmem
  | cons kv rest ih =>
    obtain ⟨k', v'⟩ := kv
    rcases List.mem_cons.mp hmem with heq | hmem'
    · cases heq
      simp [alistGet]
    · have hk : k' ≠ k := by
        intro hh
        subst hh
        have : k' ∈ rest.map Prod.fst :=
          List.mem_map.mpr ⟨(k', v), hmem', rfl⟩
        exact (List.nodup_cons.mp hnd).1 this
      rw [alistGet_cons_ne hk]
      exact ih (List.nodup_cons.mp hnd).2 hmem'

/-- Key membership only grows along the edge-building fold. -/
theorem graphBase_keys_grow :
    ∀ (links : List Link) (acc : Graph) (x : String), x ∈ graphKeys acc →
      x ∈ graphKeys (links.foldl
        (fun g l => alistPush (alistPush g l.1.1 ⟨l.2.1, l.1.2⟩) l.2.1 ⟨l.1.1, l.2.2⟩)
        acc) := by
  intro links
  induction links with
  | nil => intro acc x h; exact h
  | cons l ls ih =>
    intro acc x h
    apply ih
    rw [graphKeys, alistPush_mem_keys, alistPush_mem_keys]
    exact Or.inl (Or.inl h)

theorem graphBase_endpoint_keys :
    ∀ (links : List Link) (acc : Graph) (l : Link), l ∈ links →
      l.1.1 ∈ graphKeys (links.foldl
        (fun g l => alistPush (alistPush g l.1.1 ⟨l.2.1, l.1.2⟩) l.2.1 ⟨l.1.1, l.2.2⟩)
        acc) ∧
      l.2.1 ∈ graphKeys (links.foldl
        (fun g l => alistPush (alistPush g l.1.1 ⟨l.2.1, l.1.2⟩) l.2.1 ⟨l.1.1, l.2.2⟩)
        acc) := by
  intro links
  induction links with
  | nil => intro acc l hl; simp at hl
  | cons l0 ls ih =>
    intro acc l hl
    rcases List.mem_cons.mp hl with rfl | hl'
    · rw [List.foldl_cons]
      constructor
      · apply graphBase_keys_grow
        rw [graphKeys, alistPush_mem_keys, alistPush_mem_keys]
        exact Or.inl (Or.inr rfl)
      · apply graphBase_keys_grow
        rw [graphKeys, alistPush_mem_keys]
        exact Or.inr rfl
    · exact ih _ l hl'

theorem build_nodup_keys (links : List Link) :
    (graphKeys (build_routing_graph links)).Nodup := by
  rw [build_keys_eq]
  exact graphBase_keys_nodup links

theorem build_closed (links : List Link) : ClosedGraph (build_routing_graph links) := by
  intro kv hkv e he
  obtain ⟨kv0, hkv0, rfl⟩ := List.mem_map.mp hkv
  obtain ⟨k, es⟩ := kv0
  have hkkeys : k ∈ graphKeys (graphBase links) :=
    List.mem_map.mpr ⟨(k, es), hkv0, rfl⟩
  have hbase_get : alistGet (graphBase links) k = some es :=
    get_of_mem_nodup (graphBase_keys_nodup links) hkv0
  have hmain : ∀ e' ∈ es, e'.node ∈ graphKeys (build_routing_graph links) := by
    intro e' he'
    have : e' ∈ (alistGet (graphBase links) k).getD [] := by
      rw [hbase_get]; exact he'
    rcases graphBase_edge_elim links [] k e' this with h | ⟨l, hl, hcase⟩
    · simp [alistGet] at h
    · rw [build_keys_eq]
      rcases hcase with ⟨-, rfl⟩ | ⟨-, rfl⟩
      · exact (graphBase_endpoint_keys links [] l hl).2
      · exact (graphBase_endpoint_keys links [] l hl).1
  by_cases hpc : isPCName k = true
  · have he' : e ∈ es := by simpa [hpc] using he
    exact hmain e he'
  · rcases (by simpa [hpc] using he : e ∈ es ∨ e = RouteLink.mk k "lo") with he' | he'
    · exact hmain e he'
    · rw [he']
      rw [build_keys_eq]
      exact hkkeys

/-! ## Last element of a reconstructed path -/

theorem walkPrev_getLast {prev : String → Option String} :
    ∀ (fuel : Nat) (c : String) (acc : List String) (x : String) (p : List String),
      walkPrev prev fuel c acc = some (x, p) →
      (acc = [] → p = [] ∨ p.getLast? = some c) ∧
      (acc ≠ [] → p.getLast? = acc.getLast?) := by
  intro fuel
  induction fuel with
  | zero => intro c acc x p h; cases h
  | succ fuel ih =>
    intro c acc x p h
    rw [walkPrev] at h
    cases hp : prev c with
    | none =>
      rw [hp] at h
      cases h
      constructor
      · intro hacc
        exact Or.inl hacc
      · intro
        rfl
    | some u =>
      rw [hp] at h
      have hrec := ih u (c :: acc) x p h
      constructor
      · intro hacc
        subst hacc
        right
        simpa using hrec.2 (by simp)
      · intro hacc
        rw [hrec.2 (by simp)]
        cases acc with
        | nil => exact absurd rfl hacc
        | cons a t => rw [List.getLast?_cons_cons]

theorem dijkstra_last_aux (prev : String → Option String) (fuel : Nat) (d : String) :
    (match walkPrev prev fuel d [] with
     | none => []
     | some (c, path) => if path.isEmpty then [] else c :: path) = [] ∨
    (match walkPrev prev fuel d [] with
     | none => []
     | some (c, path) => if path.isEmpty then [] else c :: path).getLast? = some d := by
  cases hw : walkPrev prev fuel d [] with
  | none => exact Or.inl rfl
  | some cp =>
    obtain ⟨c, path⟩ := cp
    cases hpath : path with
    | nil => exact Or.inl (by simp)
    | cons a t =>
      right
      have hl := (walkPrev_getLast fuel d [] c path hw).1 rfl
      rcases hl with h | h
      · rw [hpath] at h; cases h
      · rw [hpath] at h
        simp only [List.isEmpty_cons, Bool.false_eq_true, if_false]
        rw [List.getLast?_cons_cons]
        exact h

/-- When `dijkstra` returns a nonempty path, its last element is the
requested destination (no graph hypotheses needed). -/
theorem dijkstra_last (g : Graph) (s d : String) :
    dijkstra g s d = [] ∨ (dijkstra g s d).getLast? = some d := by
  simp only [dijkstra]
  exact dijkstra_last_aux _ _ d

/-! ## `synthWalk` lemmas -/

/-- Every route the backward walk emits advertises the target subnet. -/
theorem synthWalk_subnet (choose : List Subnet → Subnet) (nm : NetworkMap)
    (tgt : Subnet) :
    ∀ (walkL : List String) (anchor : String) (rs : List (String × Route)),
      synthWalk choose nm tgt walkL anchor = .ok rs →
      ∀ x ∈ rs, x.2.subnet = tgt := by
  intro walkL
  induction walkL with
  | nil =>
    intro anchor rs h x hx
    have h' : (Except.ok [] : Except SynthError (List (String × Route))) = .ok rs := h
    cases h'
    simp at hx
  | cons node rest ih =>
    intro anchor rs h x hx
    simp only [synthWalk] at h
    cases h1 : alistGet nm node with
    | none =>
      rw [h1] at h
      exact Except.noConfusion h
    | some mn =>
      cases h2 : alistGet nm anchor with
      | none =>
        rw [h1, h2] at h
        exact Except.noConfusion h
      | some ma =>
        rw [h1, h2] at h
        simp only [] at h
        by_cases htgt : tgt ∈ nodeKeys mn
        · rw [if_pos htgt] at h
          exact ih node rs h x hx
        · rw [if_neg htgt] at h
          by_cases hint : (nodeKeys mn).filter (fun k => k ∈ nodeKeys ma) = []
          · rw [if_pos hint] at h
            exact Except.noConfusion h
          · rw [if_neg hint] at h
            cases h3 : alistGet ma
                (choose ((nodeKeys mn).filter (fun k => k ∈ nodeKeys ma))) with
            | none =>
              rw [h3] at h
              exact Except.noConfusion h
            | some hisV =>
              cases h4 : alistGet mn
                  (choose ((nodeKeys mn).filter (fun k => k ∈ nodeKeys ma))) with
              | none =>
                rw [h3, h4] at h
                exact Except.noConfusion h
              | some ourV =>
                rw [h3, h4] at h
                cases hrec : synthWalk choose nm tgt rest node with
                | error e =>
                  rw [hrec] at h
                  exact Except.noConfusion h
                | ok rs' =>
                  rw [hrec] at h
                  have h' : (Except.ok ((node, ⟨tgt, hisV.1, ourV.2⟩) :: rs') :
                      Except SynthError (List (String × Route))) = .ok rs := h
                  cases h'
                  rcases List.mem_cons.mp hx with rfl | hx'
                  · rfl
                  · exact ih node rs' hrec x hx'

/-- The backward walk can only fail on an empty intersection (or a missing
entry, excluded by its hypotheses): with every walked node and the anchor
owning an entry and a membership-respecting choice function, the result is
either the empty-intersection error or a successful route list. -/
theorem synthWalk_cases (choose : List Subnet → Subnet) (nm : NetworkMap)
    (tgt : Subnet) (hch : ∀ l : List Subnet, l ≠ [] → choose l ∈ l) :
    ∀ (walkL : List String) (anchor : String),
      (∀ x ∈ walkL, ∃ m, alistGet nm x = some m) →
      (∃ m, alistGet nm anchor = some m) →
      synthWalk choose nm tgt walkL anchor = .error .emptyIntersection ∨
      ∃ rs, synthWalk choose nm tgt walkL anchor = .ok rs := by
  intro walkL
  induction walkL with
  | nil =>
    intro anchor _ _
    exact Or.inr ⟨[], rfl⟩
  | cons node rest ih =>
    intro anchor hw ha
    obtain ⟨mn, h1⟩ := hw node (by simp)
    obtain ⟨ma, h2⟩ := ha
    have hrest : ∀ x ∈ rest, ∃ m, alistGet nm x = some m :=
      fun x hx => hw x (by simp [hx])
    simp only [synthWalk, h1, h2]
    by_cases htgt : tgt ∈ nodeKeys mn
    · rw [if_pos htgt]
      exact ih node hrest ⟨mn, h1⟩
    · rw [if_neg htgt]
      by_cases hint : (nodeKeys mn).filter (fun k => k ∈ nodeKeys ma) = []
      · rw [if_pos hint]
        exact Or.inl rfl
      · rw [if_neg hint]
        have hwmem := hch _ hint
        have hmem := List.mem_filter.mp hwmem
        have hmem_ma : choose ((nodeKeys mn).filter (fun k => k ∈ nodeKeys ma)) ∈
            nodeKeys ma := by
          simpa using hmem.2
        obtain ⟨hisV, h3⟩ := (mem_keys_iff_get ma _).mp hmem_ma
        obtain ⟨ourV, h4⟩ := (mem_keys_iff_get mn _).mp hmem.1
        rw [h3, h4]
        rcases ih node hrest ⟨mn, h1⟩ with herr | ⟨rs', hok⟩
        · rw [herr]
          exact Or.inl rfl
        · rw [hok]
          exact Or.inr ⟨(node, ⟨tgt, hisV.1, ourV.2⟩) :: rs', rfl⟩

/-- The walk never reports the empty-path error. -/
theorem synthWalk_ne_emptyPath (choose : List Subnet → Subnet) (nm : NetworkMap)
    (tgt : Subnet) :
    ∀ (walkL : List String) (anchor : String),
      synthWalk choose nm tgt walkL anchor ≠ .error .emptyPath := by
  intro walkL
  induction walkL with
  | nil =>
    intro anchor h
    exact Except.noConfusion h
  | cons node rest ih =>
    intro anchor h
    simp only [synthWalk] at h
    cases h1 : alistGet nm node with
    | none =>
      rw [h1] at h
      cases h
    | some mn =>
      cases h2 : alistGet nm anchor with
      | none =>
        rw [h1, h2] at h
        cases h
      | some ma =>
        rw [h1, h2] at h
        simp only [] at h
        by_cases htgt : tgt ∈ nodeKeys mn
        · rw [if_pos htgt] at h
          exact ih node h
        · rw [if_neg htgt] at h
          by_cases hint : (nodeKeys mn).filter (fun k => k ∈ nodeKeys ma) = []
          · rw [if_pos hint] at h
            cases h
          · rw [if_neg hint] at h
            cases h3 : alistGet ma
                (choose ((nodeKeys mn).filter (fun k => k ∈ nodeKeys ma))) with
            | none =>
              rw [h3] at h
              cases h
            | some hisV =>
              cases h4 : alistGet mn
                  (choose ((nodeKeys mn).filter (fun k => k ∈ nodeKeys ma))) with
              | none =>
                rw [h3, h4] at h
                cases h
              | some ourV =>
                rw [h3, h4] at h
                cases hrec : synthWalk choose nm tgt rest node with
                | error e =>
                  rw [hrec] at h
                  have h' : (Except.error e : Except SynthError (List (String × Route))) =
                      .error .emptyPath := h
                  cases h'
                  exact ih node hrec
                | ok rs' =>
                  rw [hrec] at h
                  exact Except.noConfusion h

/-! ## Claim C6 -/

/-- C6: after the addressing phase (loopbacks, then router-router subnets,
then router-host links), every router's first-inserted subnet key is its
`/32` loopback; within each node the subnet keys are unique; and
consequently the target subnet route synthesis advertises for a router
destination is that router's loopback. -/
theorem addressing_invariants (nodes : List String) (links : List Link)
    (wf : WFTopo nodes links) (choose : List Subnet → Subnet) :
    (∀ r ∈ nodes, isRName r = true →
      ∃ v t, alistGet (buildNetworkMap nodes links) r =
        some ((loNet (parseRId r), v) :: t)) ∧
    (∀ x m, alistGet (buildNetworkMap nodes links) x = some m →
      (m.map Prod.fst).Nodup) ∧
    (∀ s d rs, isRName d = true → d ∈ nodes →
      synthPair choose (build_routing_graph links) (buildNetworkMap nodes links)
        s d = .ok rs →
      ∀ x ∈ rs, x.2.subnet = loNet (parseRId d)) := by
  refine ⟨?_, buildNM_keysNodup nodes links, ?_⟩
  · intro r hr hrn
    exact buildNM_router_first nodes links wf.nodup r hr hrn
  · intro s d rs hdn hdm h
    simp only [synthPair] at h
    cases hrev : (dijkstra (build_routing_graph links) s d).reverse with
    | nil =>
      rw [hrev] at h
      exact Except.noConfusion h
    | cons last restRev =>
      rw [hrev] at h
      simp only [] at h
      have hlast : last = d := by
        rcases dijkstra_last (build_routing_graph links) s d with hnil | hl
        · rw [hnil] at hrev
          cases hrev
        · have hl' : (dijkstra (build_routing_graph links) s d).getLast? = some last := by
            rw [← List.head?_reverse, hrev]
            rfl
          rw [hl] at hl'
          cases hl'
          rfl
      rw [hlast] at h
      obtain ⟨v, t, hget⟩ := buildNM_router_first nodes links wf.nodup d hdm hdn
      rw [hget] at h
      simp only [List.head?_cons] at h
      exact synthWalk_subnet choose _ _ restRev d rs h

/-- Witness for C6 at the 2-router ring topology. -/
theorem addressing_invariants_witness :
    (∀ r ∈ ringNodesW, isRName r = true →
      ∃ v t, alistGet (buildNetworkMap ringNodesW ringLinksW) r =
        some ((loNet (parseRId r), v) :: t)) ∧
    (∀ x m, alistGet (buildNetworkMap ringNodesW ringLinksW) x = some m →
      (m.map Prod.fst).Nodup) ∧
    (∀ s d rs, isRName d = true → d ∈ ringNodesW →
      synthPair chooseHead (build_routing_graph ringLinksW)
        (buildNetworkMap ringNodesW ringLinksW) s d = .ok rs →
      ∀ x ∈ rs, x.2.subnet = loNet (parseRId d)) :=
  addressing_invariants ringNodesW ringLinksW
    ⟨by decide, by decide, by decide, by decide, by decide, by decide, by decide⟩
    chooseHead

/-! ## Claim C3 -/

/-- C3: for a well-formed topology and an ordered pair `(s, d)` of graph
nodes with `s ≠ d`, route synthesis fails with the empty-path assertion
exactly when `d` is unreachable from `s`, and otherwise either fails with
the empty-intersection assertion or completes without any error. -/
theorem synth_failure_modes (nodes : List String) (links : List Link)
    (wf : WFTopo nodes links) (choose : List Subnet → Subnet)
    (hch : ∀ l : List Subnet, l ≠ [] → choose l ∈ l) (s d : String)
    (hs : s ∈ graphKeys (build_routing_graph links))
    (hd : d ∈ graphKeys (build_routing_graph links)) (hne : s ≠ d) :
    (synthPair choose (build_routing_graph links) (buildNetworkMap nodes links)
        s d = .error .emptyPath ↔ ¬ Reachable (build_routing_graph links) s d) ∧
    (Reachable (build_routing_graph links) s d →
      synthPair choose (build_routing_graph links) (buildNetworkMap nodes links)
          s d = .error .emptyIntersection ∨
      ∃ rs, synthPair choose (build_routing_graph links) (buildNetworkMap nodes links)
          s d = .ok rs) := by
  obtain ⟨hunreach, -, hreach⟩ :=
    dijkstra_cases s d (build_closed links) (build_nodup_keys links) hs
  have hkey_entry : ∀ x, x ∈ graphKeys (build_routing_graph links) →
      ∃ m, alistGet (buildNetworkMap nodes links) x = some m ∧ m ≠ [] := by
    intro x hx
    rw [build_keys_eq] at hx
    rcases graphBase_keys_elim links [] x hx with h | h
    · simp [graphKeys] at h
    · exact buildNM_entry nodes links wf x h
  have hmain : Reachable (build_routing_graph links) s d →
      synthPair choose (build_routing_graph links) (buildNetworkMap nodes links)
          s d = .error .emptyIntersection ∨
      ∃ rs, synthPair choose (build_routing_graph links) (buildNetworkMap nodes links)
          s d = .ok rs := by
    intro hr
    obtain ⟨n, q, -, heq, -, hlastq, hmemq⟩ := hreach hd (Ne.symm hne) hr
    cases hrev : (s :: q).reverse with
    | nil =>
      have hlen := congrArg List.length hrev
      simp only [List.length_reverse, List.length_cons, List.length_nil] at hlen
      exact absurd hlen (by omega)
    | cons last restRev =>
      have hmem_path : ∀ x, x ∈ last :: restRev →
          x ∈ graphKeys (build_routing_graph links) := by
        intro x hx
        have : x ∈ (s :: q).reverse := by rw [hrev]; exact hx
        rcases List.mem_cons.mp (List.mem_reverse.mp this) with rfl | hxq
        · exact hs
        · exact hmemq x hxq
      obtain ⟨m, hm, hmne⟩ := hkey_entry last (hmem_path last (by simp))
      cases m with
      | nil => exact absurd rfl hmne
      | cons kv t =>
        obtain ⟨k0, v0⟩ := kv
        have hpair : synthPair choose (build_routing_graph links)
            (buildNetworkMap nodes links) s d =
            synthWalk choose (buildNetworkMap nodes links) k0 restRev last := by
          simp only [synthPair, heq, hrev, hm, List.head?_cons]
        rw [hpair]
        exact synthWalk_cases choose (buildNetworkMap nodes links) k0 hch restRev last
          (fun x hx => ⟨(hkey_entry x (hmem_path x (by simp [hx]))).choose,
            (hkey_entry x (hmem_path x (by simp [hx]))).choose_spec.1⟩)
          ⟨(k0, v0) :: t, hm⟩
  refine ⟨⟨?_, ?_⟩, hmain⟩
  · intro h hr
    rcases hmain hr with h' | ⟨rs, h'⟩
    · rw [h] at h'
      have := Except.error.inj h'
      cases this
    · rw [h] at h'
      exact Except.noConfusion h'
  · intro hur
    have hnil := hunreach hur
    simp only [synthPair, hnil]
    rfl

/-- Witness for C3 at the 2-router ring with the reachable pair `(R0, R1)`. -/
theorem synth_failure_modes_witness :
    synthPair chooseHead (build_routing_graph ringLinksW)
        (buildNetworkMap ringNodesW ringLinksW) "R0" "R1" =
      .error .emptyIntersection ∨
    ∃ rs, synthPair chooseHead (build_routing_graph ringLinksW)
        (buildNetworkMap ringNodesW ringLinksW) "R0" "R1" = .ok rs :=
  (synth_failure_modes ringNodesW ringLinksW
    ⟨by decide, by decide, by decide, by decide, by decide, by decide, by decide⟩
    chooseHead chooseHead_mem "R0" "R1" (by decide) (by decide) (by decide)).2
    ⟨1, ReachN.succ ReachN.zero (by decide)⟩

end ConfigureNodes
